import Mathlib

/-!
Verification of `fix_colors.py` from the RustIRC repository.

The script applies a fixed sequence of regular-expression substitutions to
text buffers (Rust source files) and rewrites any file whose content changed.
We embed the substitution engine faithfully: each `re.sub` call becomes a
`subst` pass with a hand-rolled matcher implementing the exact semantics of
the concrete pattern (leftmost scanning, non-overlapping replacement, greedy
character-class groups).  For these patterns greedy matching never backtracks
usefully, because each group's character class excludes the character that
follows it in the pattern, so a maximal `takeWhile` run is equivalent to the
regex group.
-/

set_option autoImplicit false

namespace FixColors

/-- Characters matched by the regex class `[a-zA-Z_]`. -/
def identChar (c : Char) : Bool :=
  ('a' ≤ c && c ≤ 'z') || ('A' ≤ c && c ≤ 'Z') || c == '_'

/-- Characters matched by the regex class `[0-9.]`. -/
def numChar (c : Char) : Bool :=
  ('0' ≤ c && c ≤ '9') || c == '.'

/-- Shorthand to turn a string literal into a character list. -/
def toL (s : String) : List Char := s.data

/-- Match a literal character sequence at the head of the input, returning
the remainder on success (the regex-literal part of a pattern). -/
def dropLit : List Char → List Char → Option (List Char)
  | [], s => some s
  | _ :: _, [] => none
  | l :: ls, c :: s => if c == l then dropLit ls s else none

/-- A matcher tries a pattern at the start of the input; on success it
returns the replacement text and the input remaining after the match. -/
def Matcher : Type := List Char → Option (List Char × List Char)

/-- Literal prefix of patterns 1 and 3: `self\.theme\.scheme\.`. -/
def pre1 : List Char := toL "self.theme.scheme."

/-- Literal prefix of patterns 2 and 4: `theme\.scheme\.`. -/
def pre2 : List Char := toL "theme.scheme."

/-- Literal `\.into\(\)` ending every pattern. -/
def intoL : List Char := toL ".into()"

/-- Literal `\.scale_alpha\(` in patterns 3 and 4. -/
def saL : List Char := toL ".scale_alpha("

/-- Head of replacements 1 and 3: `iced::Color::from(self.theme.scheme.`. -/
def rh1 : List Char := toL "iced::Color::from(self.theme.scheme."

/-- Head of replacements 2 and 4: `iced::Color::from(theme.scheme.`. -/
def rh2 : List Char := toL "iced::Color::from(theme.scheme."

/-- Head of replacement 5: `iced::Color::from(`. -/
def rh5 : List Char := toL "iced::Color::from("

/-- Core of patterns 1 and 2: `P([a-zA-Z_]+)\.into\(\)` rewritten to
`R\1)`, with literal prefix `P` and replacement head `R`.  The greedy group
is a maximal `identChar` run: backtracking cannot help because the character
after the group in the pattern is `.`, which is not in the class. -/
def matchSimple (P R : List Char) : Matcher := fun s =>
  match dropLit P s with
  | none => none
  | some s1 =>
    if s1.takeWhile identChar = [] then none
    else
      match dropLit intoL (s1.dropWhile identChar) with
      | none => none
      | some rest => some (R ++ s1.takeWhile identChar ++ [')'], rest)

/-- Core of patterns 3 and 4:
`P([a-zA-Z_]+)\.scale_alpha\(([0-9.]+)\)\.into\(\)` rewritten to
`R\1.scale_alpha(\2))`.  Both greedy groups are maximal runs for the same
reason as in `matchSimple` (`.` is not an identifier character and `)` is
not in `[0-9.]`). -/
def matchSA (P R : List Char) : Matcher := fun s =>
  match dropLit P s with
  | none => none
  | some s1 =>
    if s1.takeWhile identChar = [] then none
    else
      match dropLit saL (s1.dropWhile identChar) with
      | none => none
      | some s2 =>
        if s2.takeWhile numChar = [] then none
        else
          match dropLit (')' :: intoL) (s2.dropWhile numChar) with
          | none => none
          | some rest =>
            some (R ++ s1.takeWhile identChar ++ saL ++ s2.takeWhile numChar ++
              [')', ')'], rest)

/-- Pattern 1: `self\.theme\.scheme\.([a-zA-Z_]+)\.into\(\)` with replacement
`iced::Color::from(self.theme.scheme.\1)`. -/
def match1 : Matcher := matchSimple pre1 rh1

/-- Pattern 2: `theme\.scheme\.([a-zA-Z_]+)\.into\(\)` with replacement
`iced::Color::from(theme.scheme.\1)`. -/
def match2 : Matcher := matchSimple pre2 rh2

/-- Pattern 3: `self\.theme\.scheme\.([a-zA-Z_]+)\.scale_alpha\(([0-9.]+)\)\.into\(\)`
with replacement `iced::Color::from(self.theme.scheme.\1.scale_alpha(\2))`. -/
def match3 : Matcher := matchSA pre1 rh1

/-- Pattern 4: `theme\.scheme\.([a-zA-Z_]+)\.scale_alpha\(([0-9.]+)\)\.into\(\)`
with replacement `iced::Color::from(theme.scheme.\1.scale_alpha(\2))`. -/
def match4 : Matcher := matchSA pre2 rh2

/-- Pattern 5 for a known color variable `v`: the literal pattern
`v\.into\(\)` with replacement `iced::Color::from(v)`. -/
def matchVar (v : List Char) : Matcher := fun s =>
  match dropLit v s with
  | none => none
  | some s1 =>
    match dropLit intoL s1 with
    | none => none
    | some rest => some (rh5 ++ v ++ [')'], rest)

/-- Fuel-indexed global substitution: scan left to right; at each position
either replace a match (continuing after it, non-overlapping) or emit one
character.  This is the semantics of Python's `re.sub`. -/
def substF (m : Matcher) : Nat → List Char → List Char
  | 0, s => s
  | _ + 1, [] => []
  | f + 1, c :: s =>
    match m (c :: s) with
    | some (r, rest) => r ++ substF m f rest
    | none => c :: substF m f s

/-- Global substitution (`re.sub pattern replacement content`): the length of
the input is always enough fuel because every match consumes at least one
character. -/
def subst (m : Matcher) (s : List Char) : List Char := substF m s.length s

/-- The hardcoded identifier list `color_vars` of pattern 5. -/
def colorVars : List (List Char) :=
  [toL "background_color", toL "border_color", toL "text_color",
   toL "surface_color", toL "counter_color"]

/-- The full rule engine of `fix_color_conversions`: the five `re.sub` rules
in program order (rule 5 is one `re.sub` per hardcoded variable). -/
def fixBuffer (s : List Char) : List Char :=
  let s1 := subst match1 s
  let s2 := subst match2 s1
  let s3 := subst match3 s2
  let s4 := subst match4 s3
  colorVars.foldl (fun acc v => subst (matchVar v) acc) s4

/-- Model of `fix_color_conversions` on one file: the new content together
with the changed flag the function returns (it writes exactly when the flag
is true). -/
def fixResult (content : List Char) : List Char × Bool :=
  let c := fixBuffer content
  (c, !(c == content))

/-- A file as the walker sees it: content plus whether the read and the
write system calls would succeed. -/
structure SFile where
  content : List Char
  readable : Bool
  writable : Bool
deriving DecidableEq

/-- Outcome of `fix_color_conversions` on one file, with IO errors made
explicit: `error` when the read fails, or when the content changed and the
write fails; otherwise the updated file and the returned flag.  The flag is
true exactly when the file was written. -/
def fixFile (f : SFile) : Except Unit (SFile × Bool) :=
  if f.readable then
    let c := fixBuffer f.content
    if c == f.content then Except.ok (f, false)
    else if f.writable then Except.ok ({ f with content := c }, true)
    else Except.error ()
  else Except.error ()

/-- The loop of `main`: process files in order, stopping at the first
uncaught error.  Returns the final state of every file (earlier files
possibly rewritten, the failing and later files untouched), the count of
modified files so far, and whether an error aborted the run. -/
def runMain : List SFile → List SFile × Nat × Option Unit
  | [] => ([], 0, none)
  | f :: fs =>
    match fixFile f with
    | Except.error e => (f :: fs, 0, some e)
    | Except.ok (f2, modified) =>
      let r := runMain fs
      (f2 :: r.1, (if modified then 1 else 0) + r.2.1, r.2.2)

/-- Whether the rule engine changes a file's content. -/
def changedB (f : SFile) : Bool := !(fixBuffer f.content == f.content)

/-- The final on-disk state of a successfully processed file: rewritten with
the engine's output when it differs, untouched otherwise. -/
def writeBack (f : SFile) : SFile :=
  if fixBuffer f.content == f.content then f else { f with content := fixBuffer f.content }

/-- Suffix relation on character lists. -/
def Sfx (t s : List Char) : Prop := ∃ a, s = a ++ t

/-- A matcher consumes at least one character on every success. -/
def Shrinks (m : Matcher) : Prop :=
  ∀ s r rest, m s = some (r, rest) → rest.length < s.length

/-- Every successful match contains a dot. -/
def HasDot (m : Matcher) : Prop := ∀ s pr, m s = some pr → '.' ∈ s

/-- No suffix of `s` is matched by `m`. -/
def NoM (m : Matcher) (s : List Char) : Prop := ∀ t, Sfx t s → m t = none

/-- Decidable check that no suffix of `s` is matched by `m`. -/
def noMB (m : Matcher) : List Char → Bool
  | [] => (m []).isNone
  | c :: s => (m (c :: s)).isNone && noMB m s

theorem sfx_refl (s : List Char) : Sfx s s := ⟨[], rfl⟩

theorem sfx_nil (s : List Char) : Sfx [] s := ⟨s, by simp⟩

theorem sfx_of_cons {t s : List Char} {c : Char} (h : Sfx t s) : Sfx t (c :: s) := by
  obtain ⟨a, rfl⟩ := h
  exact ⟨c :: a, rfl⟩

theorem sfx_trans {t s u : List Char} (h1 : Sfx t s) (h2 : Sfx s u) : Sfx t u := by
  obtain ⟨a, rfl⟩ := h1
  obtain ⟨b, rfl⟩ := h2
  exact ⟨b ++ a, by simp⟩

theorem sfx_of_append {t s : List Char} (a : List Char) (h : Sfx t s) : Sfx t (a ++ s) :=
  sfx_trans h ⟨a, rfl⟩

theorem sfx_nil_eq {t : List Char} (h : Sfx t []) : t = [] := by
  obtain ⟨a, ha⟩ := h
  exact (List.append_eq_nil.mp ha.symm).2

theorem sfx_cons_cases {t s : List Char} {c : Char} (h : Sfx t (c :: s)) :
    t = c :: s ∨ Sfx t s := by
  obtain ⟨a, ha⟩ := h
  cases a with
  | nil => exact Or.inl ha.symm
  | cons b bs => exact Or.inr ⟨bs, by simpa using congrArg List.tail ha⟩

theorem sfx_append_cases {t x y : List Char} (h : Sfx t (x ++ y)) :
    Sfx t y ∨ ∃ b, Sfx b x ∧ b ≠ [] ∧ t = b ++ y := by
  induction x with
  | nil => exact Or.inl (by simpa using h)
  | cons c x ih =>
    rcases sfx_cons_cases (by simpa using h) with h1 | h1
    · exact Or.inr ⟨c :: x, sfx_refl _, by simp, h1⟩
    · rcases ih h1 with h2 | ⟨b, hb, hne, rfl⟩
      · exact Or.inl h2
      · exact Or.inr ⟨b, sfx_of_cons hb, hne, rfl⟩

theorem sfx_mem {t s : List Char} {c : Char} (h : Sfx t s) (hc : c ∈ t) : c ∈ s := by
  obtain ⟨a, rfl⟩ := h
  exact List.mem_append_right a hc

theorem dropLit_eq_some {L s r : List Char} : dropLit L s = some r ↔ s = L ++ r := by
  induction L generalizing s with
  | nil => simp [dropLit]
  | cons l ls ih =>
    cases s with
    | nil => simp [dropLit]
    | cons c s =>
      by_cases hc : c = l
      · subst hc
        simp [dropLit, ih]
      · simp [dropLit, hc, beq_iff_eq]

theorem noM_of_noMB {m : Matcher} {s : List Char} (h : noMB m s = true) : NoM m s := by
  induction s with
  | nil =>
    intro t ht
    rw [sfx_nil_eq ht]
    simpa [noMB, Option.isNone_iff_eq_none] using h
  | cons c s ih =>
    rw [noMB, Bool.and_eq_true] at h
    intro t ht
    rcases sfx_cons_cases ht with rfl | ht2
    · simpa [Option.isNone_iff_eq_none] using h.1
    · exact ih h.2 t ht2

theorem noM_dotfree {m : Matcher} {q : List Char} (hm : HasDot m) (hq : '.' ∉ q) :
    NoM m q := by
  intro t ht
  cases hmt : m t with
  | none => rfl
  | some pr => exact absurd (sfx_mem ht (hm t pr hmt)) hq

theorem noM_append {m : Matcher} {x y : List Char}
    (hx : ∀ b, Sfx b x → b ≠ [] → m (b ++ y) = none) (hy : NoM m y) :
    NoM m (x ++ y) := by
  intro t ht
  rcases sfx_append_cases ht with h | ⟨b, hb, hne, rfl⟩
  · exact hy t h
  · exact hx b hb hne

theorem substF_congr {m : Matcher} (hm : Shrinks m) :
    ∀ f1 f2 s, s.length ≤ f1 → s.length ≤ f2 → substF m f1 s = substF m f2 s := by
  intro f1
  induction f1 with
  | zero =>
    intro f2 s h1 _
    rw [List.length_eq_zero.mp (Nat.le_zero.mp h1)]
    cases f2 <;> rfl
  | succ f1 ih =>
    intro f2 s h1 h2
    cases s with
    | nil => cases f2 <;> rfl
    | cons c s =>
      cases f2 with
      | zero => exact absurd h2 (by simp)
      | succ f2 =>
        have hs1 : s.length ≤ f1 := by simpa using h1
        have hs2 : s.length ≤ f2 := by simpa using h2
        cases hmc : m (c :: s) with
        | none =>
          simp only [substF, hmc]
          rw [ih f2 s hs1 hs2]
        | some pr =>
          obtain ⟨r, rest⟩ := pr
          have hcs : rest.length < s.length + 1 := by simpa using hm _ _ _ hmc
          have hr1 : rest.length ≤ f1 := by omega
          have hr2 : rest.length ≤ f2 := by omega
          simp only [substF, hmc]
          rw [ih f2 rest hr1 hr2]

theorem subst_nil {m : Matcher} : subst m [] = [] := rfl

theorem subst_none {m : Matcher} {c : Char} {s : List Char} (h : m (c :: s) = none) :
    subst m (c :: s) = c :: subst m s := by
  show substF m (s.length + 1) (c :: s) = c :: subst m s
  simp only [substF, h]
  rfl

theorem subst_some {m : Matcher} (hm : Shrinks m) {s r rest : List Char}
    (h : m s = some (r, rest)) (hs : s ≠ []) : subst m s = r ++ subst m rest := by
  cases s with
  | nil => exact absurd rfl hs
  | cons c s =>
    show substF m (s.length + 1) (c :: s) = r ++ subst m rest
    simp only [substF, h]
    have hr : rest.length ≤ s.length := Nat.lt_succ_iff.mp (by simpa using hm _ _ _ h)
    rw [substF_congr hm s.length rest.length rest hr (Nat.le_refl _)]
    rfl

theorem subst_id_of_noM {m : Matcher} {s : List Char} (h : NoM m s) : subst m s = s := by
  induction s with
  | nil => rfl
  | cons c s ih =>
    rw [subst_none (h _ (sfx_refl _))]
    exact congrArg (c :: ·) (ih fun t ht => h t (sfx_of_cons ht))

theorem subst_append_noM {m : Matcher} {x y : List Char}
    (hx : ∀ b, Sfx b x → b ≠ [] → m (b ++ y) = none) :
    subst m (x ++ y) = x ++ subst m y := by
  induction x with
  | nil => rfl
  | cons c x ih =>
    have h1 : m (c :: (x ++ y)) = none := hx (c :: x) (sfx_refl _) (by simp)
    show subst m (c :: (x ++ y)) = c :: (x ++ subst m y)
    rw [subst_none h1]
    exact congrArg (c :: ·) (ih fun b hb hne => hx b (sfx_of_cons hb) hne)

theorem dropLit_self {L r : List Char} : dropLit L (L ++ r) = some r :=
  dropLit_eq_some.mpr rfl

theorem takeWhile_append_stop {p : Char → Bool} {u : List Char}
    (hu : ∀ c ∈ u, p c = true) {d : Char} (hd : p d = false) (w : List Char) :
    (u ++ d :: w).takeWhile p = u ∧ (u ++ d :: w).dropWhile p = d :: w := by
  induction u with
  | nil => simp [List.takeWhile_cons, List.dropWhile_cons, hd]
  | cons c u ih =>
    have hc : p c = true := hu c (by simp)
    have ih2 := ih fun x hx => hu x (by simp [hx])
    simp [List.takeWhile_cons, List.dropWhile_cons, hc, ih2.1, ih2.2]

theorem matchSimple_eq_some {P R s r rest : List Char} :
    matchSimple P R s = some (r, rest) ↔
      ∃ name, name ≠ [] ∧ (∀ c ∈ name, identChar c = true) ∧
        s = P ++ (name ++ (intoL ++ rest)) ∧ r = R ++ name ++ [')'] := by
  constructor
  · intro h
    simp only [matchSimple] at h
    cases hdl : dropLit P s with
    | none => simp only [hdl] at h; exact absurd h (by simp)
    | some s1 =>
      simp only [hdl] at h
      by_cases hname : s1.takeWhile identChar = []
      · rw [if_pos hname] at h; exact absurd h (by simp)
      · rw [if_neg hname] at h
        cases hdi : dropLit intoL (s1.dropWhile identChar) with
        | none => simp only [hdi] at h; exact absurd h (by simp)
        | some rest1 =>
          simp only [hdi] at h
          simp only [Option.some.injEq, Prod.mk.injEq] at h
          obtain ⟨hr, hrest⟩ := h
          subst hrest
          refine ⟨s1.takeWhile identChar, hname,
            fun c hc => List.mem_takeWhile_imp hc, ?_, hr.symm⟩
          calc s = P ++ s1 := dropLit_eq_some.mp hdl
            _ = P ++ (s1.takeWhile identChar ++ s1.dropWhile identChar) := by
                rw [List.takeWhile_append_dropWhile]
            _ = P ++ (s1.takeWhile identChar ++ (intoL ++ rest1)) := by
                rw [dropLit_eq_some.mp hdi]
  · rintro ⟨name, hne, hchars, rfl, rfl⟩
    have hsplit : (name ++ (intoL ++ rest)).takeWhile identChar = name ∧
        (name ++ (intoL ++ rest)).dropWhile identChar = intoL ++ rest := by
      have he : intoL ++ rest = '.' :: (toL "into()" ++ rest) := rfl
      rw [he]
      exact takeWhile_append_stop hchars (by decide) _
    simp only [matchSimple, dropLit_self, hsplit.1, hsplit.2, if_neg hne]

theorem matchSA_eq_some {P R s r rest : List Char} :
    matchSA P R s = some (r, rest) ↔
      ∃ name num, name ≠ [] ∧ (∀ c ∈ name, identChar c = true) ∧
        num ≠ [] ∧ (∀ c ∈ num, numChar c = true) ∧
        s = P ++ (name ++ (saL ++ (num ++ (')' :: (intoL ++ rest))))) ∧
        r = R ++ name ++ saL ++ num ++ [')', ')'] := by
  constructor
  · intro h
    simp only [matchSA] at h
    cases hdl : dropLit P s with
    | none => simp only [hdl] at h; exact absurd h (by simp)
    | some s1 =>
      simp only [hdl] at h
      by_cases hname : s1.takeWhile identChar = []
      · rw [if_pos hname] at h; exact absurd h (by simp)
      · rw [if_neg hname] at h
        cases hds : dropLit saL (s1.dropWhile identChar) with
        | none => simp only [hds] at h; exact absurd h (by simp)
        | some s2 =>
          simp only [hds] at h
          by_cases hnum : s2.takeWhile numChar = []
          · rw [if_pos hnum] at h; exact absurd h (by simp)
          · rw [if_neg hnum] at h
            cases hdc : dropLit (')' :: intoL) (s2.dropWhile numChar) with
            | none => simp only [hdc] at h; exact absurd h (by simp)
            | some rest1 =>
              simp only [hdc] at h
              simp only [Option.some.injEq, Prod.mk.injEq] at h
              obtain ⟨hr, hrest⟩ := h
              subst hrest
              refine ⟨s1.takeWhile identChar, s2.takeWhile numChar, hname,
                fun c hc => List.mem_takeWhile_imp hc, hnum,
                fun c hc => List.mem_takeWhile_imp hc, ?_, hr.symm⟩
              calc s = P ++ s1 := dropLit_eq_some.mp hdl
                _ = P ++ (s1.takeWhile identChar ++ s1.dropWhile identChar) := by
                    rw [List.takeWhile_append_dropWhile]
                _ = P ++ (s1.takeWhile identChar ++ (saL ++ s2)) := by
                    rw [dropLit_eq_some.mp hds]
                _ = P ++ (s1.takeWhile identChar ++
                      (saL ++ (s2.takeWhile numChar ++ s2.dropWhile numChar))) := by
                    rw [List.takeWhile_append_dropWhile]
                _ = P ++ (s1.takeWhile identChar ++
                      (saL ++ (s2.takeWhile numChar ++ (')' :: (intoL ++ rest1))))) := by
                    rw [dropLit_eq_some.mp hdc]
                    rfl
  · rintro ⟨name, num, hne, hchars, hnume, hnumc, rfl, rfl⟩
    have hsplit1 : (name ++ (saL ++ (num ++ (')' :: (intoL ++ rest))))).takeWhile identChar
          = name ∧
        (name ++ (saL ++ (num ++ (')' :: (intoL ++ rest))))).dropWhile identChar
          = saL ++ (num ++ (')' :: (intoL ++ rest))) := by
      have he : saL ++ (num ++ (')' :: (intoL ++ rest)))
          = '.' :: (toL "scale_alpha(" ++ (num ++ (')' :: (intoL ++ rest)))) := rfl
      rw [he]
      exact takeWhile_append_stop hchars (by decide) _
    have hsplit2 : (num ++ (')' :: (intoL ++ rest))).takeWhile numChar = num ∧
        (num ++ (')' :: (intoL ++ rest))).dropWhile numChar = ')' :: (intoL ++ rest) := by
      exact takeWhile_append_stop hnumc (by decide) _
    have hcons : dropLit (')' :: intoL) (')' :: (intoL ++ rest)) = some rest := dropLit_self
    simp only [matchSA, dropLit_self, hsplit1.1, hsplit1.2, if_neg hne,
      hsplit2.1, hsplit2.2, if_neg hnume, hcons]

theorem matchVar_eq_some {v s r rest : List Char} :
    matchVar v s = some (r, rest) ↔
      s = v ++ (intoL ++ rest) ∧ r = rh5 ++ v ++ [')'] := by
  constructor
  · intro h
    simp only [matchVar] at h
    cases hdv : dropLit v s with
    | none => simp only [hdv] at h; exact absurd h (by simp)
    | some s1 =>
      simp only [hdv] at h
      cases hdi : dropLit intoL s1 with
      | none => simp only [hdi] at h; exact absurd h (by simp)
      | some rest1 =>
        simp only [hdi] at h
        simp only [Option.some.injEq, Prod.mk.injEq] at h
        obtain ⟨hr, hrest⟩ := h
        subst hrest
        exact ⟨by rw [dropLit_eq_some.mp hdv, dropLit_eq_some.mp hdi], hr.symm⟩
  · rintro ⟨rfl, rfl⟩
    simp only [matchVar, dropLit_self]

theorem shrinks_matchSimple {P R : List Char} : Shrinks (matchSimple P R) := by
  intro s r rest h
  obtain ⟨name, hne, _, rfl, _⟩ := matchSimple_eq_some.mp h
  have h7 : intoL.length = 7 := by decide
  cases name with
  | nil => exact absurd rfl hne
  | cons c name => simp [List.length_append, h7]; omega

theorem shrinks_matchSA {P R : List Char} : Shrinks (matchSA P R) := by
  intro s r rest h
  obtain ⟨name, num, hne, _, _, _, rfl, _⟩ := matchSA_eq_some.mp h
  have h7 : intoL.length = 7 := by decide
  cases name with
  | nil => exact absurd rfl hne
  | cons c name => simp [List.length_append, h7]; omega

theorem shrinks_matchVar {v : List Char} : Shrinks (matchVar v) := by
  intro s r rest h
  obtain ⟨rfl, _⟩ := matchVar_eq_some.mp h
  have h7 : intoL.length = 7 := by decide
  simp [List.length_append, h7]
  omega

theorem hasDot_matchSimple {P R : List Char} : HasDot (matchSimple P R) := by
  intro s pr h
  obtain ⟨r, rest⟩ := pr
  obtain ⟨name, _, _, rfl, _⟩ := matchSimple_eq_some.mp h
  have : '.' ∈ intoL := by decide
  simp [List.mem_append, this]

theorem hasDot_matchSA {P R : List Char} : HasDot (matchSA P R) := by
  intro s pr h
  obtain ⟨r, rest⟩ := pr
  obtain ⟨name, num, _, _, _, _, rfl, _⟩ := matchSA_eq_some.mp h
  have : '.' ∈ intoL := by decide
  simp [List.mem_append, this]

theorem hasDot_matchVar {v : List Char} : HasDot (matchVar v) := by
  intro s pr h
  obtain ⟨r, rest⟩ := pr
  obtain ⟨rfl, _⟩ := matchVar_eq_some.mp h
  have : '.' ∈ intoL := by decide
  simp [List.mem_append, this]

theorem ident_not_num {c : Char} (h : identChar c = true) : numChar c = false := by
  cases hn : numChar c with
  | false => rfl
  | true =>
    exfalso
    simp only [identChar, Bool.or_eq_true, Bool.and_eq_true, beq_iff_eq,
      decide_eq_true_eq] at h
    simp only [numChar, Bool.or_eq_true, Bool.and_eq_true, beq_iff_eq,
      decide_eq_true_eq] at hn
    rcases hn with ⟨_, hn2⟩ | rfl
    · rcases h with (⟨h1, _⟩ | ⟨h1, _⟩) | rfl
      · exact absurd (le_trans h1 hn2) (by decide)
      · exact absurd (le_trans h1 hn2) (by decide)
      · exact absurd hn2 (by decide)
    · rcases h with (⟨h1, _⟩ | ⟨h1, _⟩) | h1
      · exact absurd h1 (by decide)
      · exact absurd h1 (by decide)
      · exact absurd h1 (by decide)

theorem ident_ne {c d : Char} (h : identChar c = true) (hd : identChar d = false) :
    c ≠ d := by
  intro he
  rw [he, hd] at h
  exact Bool.false_ne_true h

theorem num_ne {c d : Char} (h : numChar c = true) (hd : numChar d = false) : c ≠ d := by
  intro he
  rw [he, hd] at h
  exact Bool.false_ne_true h

theorem getLast?_append_right {x y : List Char} (hy : y ≠ []) :
    (x ++ y).getLast? = y.getLast? := by
  rcases List.eq_nil_or_concat y with rfl | ⟨y0, e, rfl⟩
  · exact absurd rfl hy
  · rw [List.concat_eq_append, ← List.append_assoc, List.getLast?_concat,
      List.getLast?_concat]

theorem append_eq_cases {u Z v W : List Char} (h : u ++ Z = v ++ W) :
    (∃ t, u = v ++ t) ∨ (u.length < v.length ∧ u = v.take u.length) := by
  rcases le_or_lt v.length u.length with hle | hlt
  · left
    have h1 : u = (u ++ Z).take u.length := (List.take_left u Z).symm
    rw [h, List.take_append_eq_append_take, List.take_of_length_le hle] at h1
    exact ⟨W.take (u.length - v.length), h1⟩
  · right
    refine ⟨hlt, ?_⟩
    have h1 : u = (u ++ Z).take u.length := (List.take_left u Z).symm
    rw [h, List.take_append_eq_append_take, Nat.sub_eq_zero_of_le (Nat.le_of_lt hlt)] at h1
    simpa using h1

/-- Every occurrence of a closing parenthesis in the pre-`.into()` part of a
matched span is immediately preceded by a `[0-9.]` character (it can only be
the parenthesis closing a `scale_alpha` numeric argument). -/
def parenOK (x : List Char) : Prop :=
  ∀ a b, x = a ++ ')' :: b → ∃ a0 c0, a = a0 ++ [c0] ∧ numChar c0 = true

theorem parenOK_noParen {x : List Char} (hx : ∀ c ∈ x, c ≠ ')') : parenOK x := by
  intro a b hab
  exact absurd rfl (hx ')' (by rw [hab]; simp))

theorem parenOK_concat {x0 : List Char} (hx : ∀ c ∈ x0, c ≠ ')') {a0 : List Char}
    {c0 : Char} (hx0 : x0 = a0 ++ [c0]) (hc0 : numChar c0 = true) :
    parenOK (x0 ++ [')']) := by
  intro a b hab
  rcases List.eq_nil_or_concat b with rfl | ⟨b0, e, rfl⟩
  · have h1 : x0 ++ [')'] = a ++ [')'] := by simpa using hab
    have h2 : x0 = a := List.append_cancel_right h1
    exact ⟨a0, c0, by rw [← h2, hx0], hc0⟩
  · rw [List.concat_eq_append] at hab
    have hre : x0 ++ [')'] = (a ++ ')' :: b0) ++ [e] := by rw [hab]; simp
    obtain ⟨h1, _⟩ := List.append_inj' hre (by simp)
    exact absurd rfl (hx ')' (by rw [h1]; simp))

/-- Structural facts shared by all five replacement templates: they begin
with `iced:`, end with a character pair whose first element is not in
`[0-9.]` followed by `)`, and contain no occurrence of `.into()`. -/
structure GoodRep (r : List Char) : Prop where
  head5 : ∃ z, r = toL "iced:" ++ z
  tail2 : ∃ r0 c, r = r0 ++ [c, ')'] ∧ numChar c = false
  noInto : ∀ x y, r ≠ x ++ (intoL ++ y)

/-- Structural facts shared by all five matchers, used to show that no match
can ever overlap replacement text: every successful match splits the input
as span-plus-remainder where the span ends in `.into()`, contains no colon
before it, satisfies `parenOK` before the `.into()`, matches again whatever
follows it, and the produced replacement satisfies `GoodRep`. -/
structure MFacts (m : Matcher) : Prop where
  shrinks : Shrinks m
  span_of : ∀ s r rest, m s = some (r, rest) → ∃ sp0,
      s = (sp0 ++ intoL) ++ rest ∧
      (∀ c ∈ sp0, c ≠ ':') ∧
      parenOK sp0 ∧
      (∀ w, m ((sp0 ++ intoL) ++ w) = some (r, w))
  rep_of : ∀ s r rest, m s = some (r, rest) → GoodRep r

theorem mfacts_nil {m : Matcher} (hm : MFacts m) : m [] = none := by
  cases h : m [] with
  | none => rfl
  | some pr =>
    obtain ⟨r, rest⟩ := pr
    obtain ⟨sp0, heq, _, _, _⟩ := hm.span_of _ _ _ h
    have : intoL.length = 7 := by decide
    have hlen := congrArg List.length heq
    simp [List.length_append, this] at hlen
    exact absurd hlen (by omega)

theorem sfx_last_two {r0 r2 : List Char} {c x : Char}
    (h : Sfx r2 (r0 ++ [c, x])) (hne : r2 ≠ []) :
    r2 = [x] ∨ ∃ b, r2 = b ++ [c, x] := by
  have h2 : Sfx r2 ((r0 ++ [c]) ++ [x]) := by simpa [List.append_assoc] using h
  rcases sfx_append_cases h2 with h3 | ⟨b, hb, hbne, rfl⟩
  · rcases sfx_cons_cases h3 with rfl | h4
    · exact Or.inl rfl
    · exact absurd (sfx_nil_eq h4) hne
  · rcases sfx_append_cases hb with h5 | ⟨b2, hb2, hb2ne, rfl⟩
    · rcases sfx_cons_cases h5 with rfl | h6
      · exact Or.inr ⟨[], by simp⟩
      · exact absurd (sfx_nil_eq h6) hbne
    · exact Or.inr ⟨b2, by simp⟩

theorem span_last {sp0 : List Char} : (sp0 ++ intoL).getLast? = some ')' := by
  rw [getLast?_append_right (by decide)]
  decide

/-- A match can never begin strictly inside (or at the start of) inserted
replacement text: replacements end in a `)` that no span position can
produce at that offset. -/
theorem noStartInRep {m : Matcher} (hm : MFacts m) {r : List Char} (hr : GoodRep r) :
    ∀ r2, Sfx r2 r → r2 ≠ [] → ∀ Z, m (r2 ++ Z) = none := by
  intro r2 hsfx hne Z
  cases hmz : m (r2 ++ Z) with
  | none => rfl
  | some pr =>
    exfalso
    obtain ⟨rr, rest⟩ := pr
    obtain ⟨sp0, heq, hcolon, hparen, _⟩ := hm.span_of _ _ _ hmz
    rcases append_eq_cases heq with ⟨t, ht⟩ | ⟨hlt, htake⟩
    · obtain ⟨a, ha⟩ := hsfx
      refine hr.noInto (a ++ sp0) t ?_
      rw [ha, ht]
      simp [List.append_assoc]
    · obtain ⟨r0, c, hrc, hcnum⟩ := hr.tail2
      rw [List.take_append_eq_append_take] at htake
      rcases le_or_lt r2.length sp0.length with hle | hgt
      · have htk : r2 = sp0.take r2.length := by
          rw [htake, Nat.sub_eq_zero_of_le hle]
          simp
        have hsp : sp0 = r2 ++ sp0.drop r2.length := by
          conv_lhs => rw [← List.take_append_drop r2.length sp0]
          rw [← htk]
        rcases sfx_last_two (hrc ▸ hsfx) hne with rfl | ⟨b, rfl⟩
        · obtain ⟨a0, c0, ha0, _⟩ := hparen [] (sp0.drop 1) (by simpa using hsp)
          exact absurd ha0.symm (by simp)
        · obtain ⟨a0, c0, ha0, hc0⟩ := hparen (b ++ [c])
            (sp0.drop (b ++ [c, ')']).length) (by rw [hsp]; simp)
          obtain ⟨_, h2⟩ := List.append_inj' ha0 (by simp)
          have hcc : c = c0 := by simpa using h2
          rw [← hcc, hcnum] at hc0
          exact Bool.false_ne_true hc0
      · have hsp0take : sp0.take r2.length = sp0 := List.take_of_length_le (Nat.le_of_lt hgt)
        rw [hsp0take] at htake
        obtain ⟨k, hk⟩ : ∃ k, r2.length - sp0.length = k := ⟨_, rfl⟩
        rw [hk] at htake
        have hk1 : 1 ≤ k := by omega
        have hk6 : k ≤ 6 := by
          have h7 : intoL.length = 7 := by decide
          have := hlt
          simp [List.length_append, h7] at this
          omega
        have hlast1 : r2.getLast? = (intoL.take k).getLast? := by
          rw [htake]
          refine getLast?_append_right (List.ne_nil_of_length_pos ?_)
          rw [List.length_take]
          have : intoL.length = 7 := by decide
          omega
        have hlast2 : r2.getLast? = some ')' := by
          rcases sfx_last_two (hrc ▸ hsfx) hne with rfl | ⟨b, rfl⟩
          · rfl
          · rw [show b ++ [c, ')'] = (b ++ [c]) ++ [')'] by simp, List.getLast?_concat]
        rw [hlast2] at hlast1
        interval_cases k <;> revert hlast1 <;> decide

/-- Structure of one substitution pass: either nothing matched anywhere, or
the output splits as an untouched prefix, an inserted replacement, and the
recursively processed remainder of the first match. -/
theorem subst_struct {m : Matcher} (hm : MFacts m) :
    ∀ t, subst m t = t ∨ ∃ a sp rep rest, t = a ++ (sp ++ rest) ∧
      subst m t = a ++ (rep ++ subst m rest) ∧ m (sp ++ rest) = some (rep, rest) := by
  intro t
  induction t with
  | nil => exact Or.inl rfl
  | cons c t ih =>
    cases hmc : m (c :: t) with
    | some pr =>
      obtain ⟨r, rest⟩ := pr
      obtain ⟨sp0, heq, _, _, _⟩ := hm.span_of _ _ _ hmc
      refine Or.inr ⟨[], sp0 ++ intoL, r, rest, by simpa using heq, ?_, ?_⟩
      · rw [subst_some hm.shrinks hmc (by simp)]
        simp
      · rw [← heq]
        exact hmc
    | none =>
      rcases ih with he | ⟨a, sp, rep, rest, he1, he2, hm3⟩
      · exact Or.inl (by rw [subst_none hmc, he])
      · refine Or.inr ⟨c :: a, sp, rep, rest, by rw [he1]; rfl, ?_, hm3⟩
        rw [subst_none hmc, he2]
        rfl

/-- Core preservation argument: a pass with matcher `mp` can never create a
match of `m` at any position, provided `m` had no match wherever `mp` had
none.  A surviving match would have to overlap inserted replacement text,
which is impossible: replacements start with `iced:` (match spans contain no
colon and end in `)`), and by `noStartInRep` no match can begin inside one. -/
theorem nomatch_subst_aux {m mp : Matcher} (hm : MFacts m) (hmp : MFacts mp) :
    ∀ n s, s.length ≤ n → (∀ t, Sfx t s → mp t = none → m t = none) →
      NoM m (subst mp s) := by
  intro n
  induction n with
  | zero =>
    intro s hs _
    rw [List.length_eq_zero.mp (Nat.le_zero.mp hs)]
    intro t ht
    rw [sfx_nil_eq ht]
    exact mfacts_nil hm
  | succ n ih =>
    intro s hs hcond
    cases s with
    | nil =>
      intro t ht
      have ht2 : Sfx t [] := ht
      rw [sfx_nil_eq ht2]
      exact mfacts_nil hm
    | cons c s' =>
      cases hmc : mp (c :: s') with
      | some pr =>
        obtain ⟨r, rest⟩ := pr
        rw [subst_some hmp.shrinks hmc (by simp)]
        have hrest_sfx : Sfx rest (c :: s') := by
          obtain ⟨sp0, heq, _, _, _⟩ := hmp.span_of _ _ _ hmc
          exact ⟨sp0 ++ intoL, heq⟩
        have hlen : rest.length ≤ n := by
          have h1 := hmp.shrinks _ _ _ hmc
          simp at h1 hs
          omega
        have hrec : NoM m (subst mp rest) :=
          ih rest hlen fun t ht h2 => hcond t (sfx_trans ht hrest_sfx) h2
        have hgood : GoodRep r := hmp.rep_of _ _ _ hmc
        intro t ht
        rcases sfx_append_cases ht with h1 | ⟨b, hb, hbne, rfl⟩
        · exact hrec t h1
        · exact noStartInRep hm hgood b hb hbne _
      | none =>
        rw [subst_none hmc]
        intro t ht
        rcases sfx_cons_cases ht with rfl | h1
        · -- the head position: show the pass created no match spanning it
          cases hhm : m (c :: subst mp s') with
          | none => rfl
          | some pr =>
            exfalso
            obtain ⟨r2, rst⟩ := pr
            obtain ⟨sp0, heq, hcolon, _, hAll⟩ := hm.span_of _ _ _ hhm
            rcases subst_struct hmp s' with hid | ⟨a, sp, rep, rest, he1, he2, hm3⟩
            · rw [hid] at hhm
              rw [hcond (c :: s') (sfx_refl _) hmc] at hhm
              simp at hhm
            · rw [he2] at heq
              have heq2 : (c :: a) ++ (rep ++ subst mp rest) = (sp0 ++ intoL) ++ rst := by
                simpa using heq
              rcases append_eq_cases heq2 with ⟨t2, ht2⟩ | ⟨hlt, htk⟩
              · have hcs : c :: s' = (sp0 ++ intoL) ++ (t2 ++ (sp ++ rest)) := by
                  rw [he1]
                  rw [show c :: (a ++ (sp ++ rest)) = (c :: a) ++ (sp ++ rest) from rfl,
                    ht2]
                  simp [List.append_assoc]
                have hms : m (c :: s') = some (r2, t2 ++ (sp ++ rest)) := by
                  rw [hcs]
                  exact hAll _
                rw [hcond (c :: s') (sfx_refl _) hmc] at hms
                simp at hms
              · have hdropEq : (sp0 ++ intoL).drop (c :: a).length ++ rst
                    = rep ++ subst mp rest := by
                  have h1 := congrArg (List.drop (c :: a).length) heq2
                  rw [List.drop_left] at h1
                  rw [List.drop_append_eq_append_drop,
                    Nat.sub_eq_zero_of_le (Nat.le_of_lt hlt), List.drop_zero] at h1
                  exact h1.symm
                have hone : (sp0 ++ intoL).drop (c :: a).length ≠ [] := by
                  intro hnil
                  have hl := congrArg List.length hnil
                  rw [List.length_drop] at hl
                  have h7 : intoL.length = 7 := by decide
                  have hlt' := hlt
                  simp [List.length_append, h7] at hl hlt'
                  omega
                have hocolon : ∀ ch ∈ (sp0 ++ intoL).drop (c :: a).length, ch ≠ ':' := by
                  intro ch hch
                  rcases List.mem_append.mp (List.mem_of_mem_drop hch) with h2 | h2
                  · exact hcolon ch h2
                  · intro he
                    rw [he] at h2
                    exact absurd h2 (by decide)
                have holast : ((sp0 ++ intoL).drop (c :: a).length).getLast?
                    = some ')' := by
                  have hsplit : sp0 ++ intoL = (sp0 ++ intoL).take (c :: a).length
                      ++ (sp0 ++ intoL).drop (c :: a).length :=
                    (List.take_append_drop _ _).symm
                  have hsl := @span_last sp0
                  rw [hsplit, getLast?_append_right hone] at hsl
                  exact hsl
                have hgr : GoodRep rep := hmp.rep_of _ _ _ hm3
                obtain ⟨z, hz⟩ := hgr.head5
                rcases append_eq_cases hdropEq with ⟨t3, ht3⟩ | ⟨hlt3, htk3⟩
                · have hmem : ':' ∈ (sp0 ++ intoL).drop (c :: a).length := by
                    rw [ht3, hz]
                    exact List.mem_append_left _ (List.mem_append_left _ (by decide))
                  exact hocolon ':' hmem rfl
                · rcases le_or_lt 5 ((sp0 ++ intoL).drop (c :: a).length).length
                    with h5 | h5
                  · have hmem : ':' ∈ (sp0 ++ intoL).drop (c :: a).length := by
                      rw [htk3, hz, List.take_append_eq_append_take]
                      have h55 : (toL "iced:").take
                          ((sp0 ++ intoL).drop (c :: a).length).length = toL "iced:" := by
                        refine List.take_of_length_le ?_
                        have h5' : (toL "iced:").length = 5 := by decide
                        omega
                      rw [h55]
                      exact List.mem_append_left _ (by decide)
                    exact hocolon ':' hmem rfl
                  · obtain ⟨k, hkk⟩ :
                        ∃ k, ((sp0 ++ intoL).drop (c :: a).length).length = k := ⟨_, rfl⟩
                    have hk1 : 1 ≤ k := by
                      rcases Nat.eq_zero_or_pos k with h0 | hp
                      · rw [h0] at hkk
                        exact absurd (List.length_eq_zero.mp hkk) hone
                      · exact hp
                    have hk4 : k ≤ 4 := by omega
                    have ho : (sp0 ++ intoL).drop (c :: a).length = (toL "iced:").take k := by
                      rw [htk3, hz, hkk, List.take_append_eq_append_take]
                      have hz0 : z.take (k - (toL "iced:").length) = [] := by
                        have h5' : (toL "iced:").length = 5 := by decide
                        rw [h5', Nat.sub_eq_zero_of_le (by omega), List.take_zero]
                      rw [hz0, List.append_nil]
                    rw [ho] at holast
                    interval_cases k <;> revert holast <;> decide
        · exact ih s' (by simpa using hs)
            (fun t2 ht2 h2 => hcond t2 (sfx_of_cons ht2) h2) t h1

/-- A pass with matcher `mp` preserves absence of `m`-matches everywhere
(taking `mp = m` this also says one pass removes all of its own matches). -/
theorem nomatch_subst {m mp : Matcher} (hm : MFacts m) (hmp : MFacts mp)
    (s : List Char) (hcond : ∀ t, Sfx t s → mp t = none → m t = none) :
    NoM m (subst mp s) :=
  nomatch_subst_aux hm hmp s.length s (Nat.le_refl _) hcond

theorem goodRep_of_simple {R name : List Char} (hne : name ≠ [])
    (hchars : ∀ c ∈ name, identChar c = true) (hRhead : ∃ z, R = toL "iced:" ++ z)
    (hRparen : ∀ c ∈ R, c ≠ ')') : GoodRep (R ++ name ++ [')']) := by
  constructor
  · obtain ⟨z, rfl⟩ := hRhead
    exact ⟨z ++ name ++ [')'], by simp [List.append_assoc]⟩
  · rcases List.eq_nil_or_concat name with rfl | ⟨n0, cl, rfl⟩
    · exact absurd rfl hne
    · refine ⟨R ++ n0, cl, ?_, ?_⟩
      · simp [List.concat_eq_append, List.append_assoc]
      · exact ident_not_num (hchars cl (by simp [List.concat_eq_append]))
  · intro x y hxy
    rcases List.eq_nil_or_concat y with rfl | ⟨y0, e, rfl⟩
    · have hsplit : intoL = toL ".into(" ++ [')'] := by decide
      have h1 : (R ++ name) ++ [')'] = (x ++ toL ".into(") ++ [')'] := by
        rw [List.append_nil] at hxy
        rw [hsplit] at hxy
        simpa [List.append_assoc] using hxy
      have h2 : R ++ name = x ++ toL ".into(" := List.append_cancel_right h1
      have hlhs : (R ++ name).getLast? = name.getLast? := getLast?_append_right hne
      have hrhs : (x ++ toL ".into(").getLast? = some '(' := by
        rw [getLast?_append_right (by decide)]
        decide
      rw [h2, hrhs] at hlhs
      rcases List.eq_nil_or_concat name with rfl | ⟨n0, cl, rfl⟩
      · exact absurd rfl hne
      · rw [List.concat_eq_append, List.getLast?_concat] at hlhs
        have hcl := hchars cl (by simp [List.concat_eq_append])
        rw [← Option.some.inj hlhs] at hcl
        exact absurd hcl (by decide)
    · have h1 : (R ++ name) ++ [')'] = (x ++ (intoL ++ y0)) ++ [e] := by
        rw [List.concat_eq_append] at hxy
        simpa [List.append_assoc] using hxy
      obtain ⟨h2, _⟩ := List.append_inj' h1 (by simp)
      have hmem : ')' ∈ R ++ name := by
        rw [h2]
        exact List.mem_append_right _ (List.mem_append_left _ (by decide))
      rcases List.mem_append.mp hmem with h3 | h3
      · exact hRparen ')' h3 rfl
      · exact absurd (hchars ')' h3) (by decide)

theorem goodRep_of_sa {R name num : List Char} (hne : name ≠ [])
    (hchars : ∀ c ∈ name, identChar c = true) (hnume : num ≠ [])
    (hnumc : ∀ c ∈ num, numChar c = true) (hRhead : ∃ z, R = toL "iced:" ++ z)
    (hRparen : ∀ c ∈ R, c ≠ ')') :
    GoodRep (R ++ name ++ saL ++ num ++ [')', ')']) := by
  constructor
  · obtain ⟨z, rfl⟩ := hRhead
    exact ⟨z ++ name ++ saL ++ num ++ [')', ')'], by simp [List.append_assoc]⟩
  · exact ⟨R ++ name ++ saL ++ num, ')', rfl, by decide⟩
  · intro x y hxy
    rcases List.eq_nil_or_concat y with rfl | ⟨y0, e, rfl⟩
    · have hsplit : intoL = toL ".into(" ++ [')'] := by decide
      have h1 : (R ++ name ++ saL ++ num ++ [')']) ++ [')']
          = (x ++ toL ".into(") ++ [')'] := by
        rw [List.append_nil] at hxy
        rw [hsplit] at hxy
        simpa [List.append_assoc] using hxy
      have h2 : R ++ name ++ saL ++ num ++ [')'] = x ++ toL ".into(" :=
        List.append_cancel_right h1
      have hlhs : (R ++ name ++ saL ++ num ++ [')']).getLast? = some ')' :=
        List.getLast?_concat _
      have hrhs : (x ++ toL ".into(").getLast? = some '(' := by
        rw [getLast?_append_right (by decide)]
        decide
      rw [h2, hrhs] at hlhs
      exact absurd (Option.some.inj hlhs) (by decide)
    · rcases List.eq_nil_or_concat y0 with rfl | ⟨y1, e1, rfl⟩
      · have h1 : (R ++ name ++ saL ++ num ++ [')']) ++ [')']
            = (x ++ intoL) ++ [e] := by
          rw [List.concat_eq_append] at hxy
          simpa [List.append_assoc] using hxy
        obtain ⟨h2, _⟩ := List.append_inj' h1 (by simp)
        have hsplit : intoL = toL ".into(" ++ [')'] := by decide
        have h3 : (R ++ name ++ saL ++ num) ++ [')'] = (x ++ toL ".into(") ++ [')'] := by
          rw [hsplit] at h2
          simpa [List.append_assoc] using h2
        have h4 : R ++ name ++ saL ++ num = x ++ toL ".into(" :=
          List.append_cancel_right h3
        have hlhs : (R ++ name ++ saL ++ num).getLast? = num.getLast? := by
          rw [show R ++ name ++ saL ++ num = (R ++ name ++ saL) ++ num by
            simp [List.append_assoc]]
          exact getLast?_append_right hnume
        have hrhs : (x ++ toL ".into(").getLast? = some '(' := by
          rw [getLast?_append_right (by decide)]
          decide
        rw [h4, hrhs] at hlhs
        rcases List.eq_nil_or_concat num with rfl | ⟨n0, cl, rfl⟩
        · exact absurd rfl hnume
        · rw [List.concat_eq_append, List.getLast?_concat] at hlhs
          have hcl := hnumc cl (by simp [List.concat_eq_append])
          rw [← Option.some.inj hlhs] at hcl
          exact absurd hcl (by decide)
      · have h1 : (R ++ name ++ saL ++ num) ++ [')', ')']
            = (x ++ (intoL ++ y1)) ++ [e1, e] := by
          rw [List.concat_eq_append] at hxy
          simpa [List.append_assoc] using hxy
        obtain ⟨h2, _⟩ := List.append_inj' h1 (by simp)
        have hmem : ')' ∈ R ++ name ++ saL ++ num := by
          rw [h2]
          exact List.mem_append_right _ (List.mem_append_left _ (by decide))
        rcases List.mem_append.mp hmem with h3 | h3
        · rcases List.mem_append.mp h3 with h4 | h4
          · rcases List.mem_append.mp h4 with h5 | h5
            · exact hRparen ')' h5 rfl
            · exact absurd (hchars ')' h5) (by decide)
          · revert h4
            decide
        · exact absurd (hnumc ')' h3) (by decide)

theorem mfacts_matchSimple {P R : List Char} (hPcolon : ∀ c ∈ P, c ≠ ':')
    (hPparen : ∀ c ∈ P, c ≠ ')') (hRhead : ∃ z, R = toL "iced:" ++ z)
    (hRparen : ∀ c ∈ R, c ≠ ')') : MFacts (matchSimple P R) := by
  refine ⟨shrinks_matchSimple, ?_, ?_⟩
  · intro s r rest h
    obtain ⟨name, hne, hchars, rfl, rfl⟩ := matchSimple_eq_some.mp h
    refine ⟨P ++ name, by simp [List.append_assoc], ?_, ?_, ?_⟩
    · intro c hc
      rcases List.mem_append.mp hc with h1 | h1
      · exact hPcolon c h1
      · exact ident_ne (hchars c h1) (by decide)
    · refine parenOK_noParen ?_
      intro c hc
      rcases List.mem_append.mp hc with h1 | h1
      · exact hPparen c h1
      · exact ident_ne (hchars c h1) (by decide)
    · intro w
      exact matchSimple_eq_some.mpr ⟨name, hne, hchars, by simp [List.append_assoc], rfl⟩
  · intro s r rest h
    obtain ⟨name, hne, hchars, rfl, rfl⟩ := matchSimple_eq_some.mp h
    exact goodRep_of_simple hne hchars hRhead hRparen

theorem mfacts_matchSA {P R : List Char} (hPcolon : ∀ c ∈ P, c ≠ ':')
    (hPparen : ∀ c ∈ P, c ≠ ')') (hRhead : ∃ z, R = toL "iced:" ++ z)
    (hRparen : ∀ c ∈ R, c ≠ ')') : MFacts (matchSA P R) := by
  refine ⟨shrinks_matchSA, ?_, ?_⟩
  · intro s r rest h
    obtain ⟨name, num, hne, hchars, hnume, hnumc, rfl, rfl⟩ := matchSA_eq_some.mp h
    refine ⟨(P ++ (name ++ (saL ++ num))) ++ [')'], by simp [List.append_assoc], ?_, ?_, ?_⟩
    · intro c hc
      rcases List.mem_append.mp hc with h1 | h1
      · rcases List.mem_append.mp h1 with h2 | h2
        · exact hPcolon c h2
        · rcases List.mem_append.mp h2 with h3 | h3
          · exact ident_ne (hchars c h3) (by decide)
          · rcases List.mem_append.mp h3 with h4 | h4
            · exact (by decide : ∀ x ∈ saL, x ≠ ':') c h4
            · exact num_ne (hnumc c h4) (by decide)
      · simp at h1
        rw [h1]
        decide
    · rcases List.eq_nil_or_concat num with rfl | ⟨n0, cn, rfl⟩
      · exact absurd rfl hnume
      · refine @parenOK_concat _ ?_ (P ++ (name ++ (saL ++ n0))) cn ?_ ?_
        · intro c hc
          rcases List.mem_append.mp hc with h2 | h2
          · exact hPparen c h2
          · rcases List.mem_append.mp h2 with h3 | h3
            · exact ident_ne (hchars c h3) (by decide)
            · rcases List.mem_append.mp h3 with h4 | h4
              · exact (by decide : ∀ x ∈ saL, x ≠ ')') c h4
              · exact num_ne (hnumc c h4) (by decide)
        · simp [List.concat_eq_append, List.append_assoc]
        · exact hnumc cn (by simp [List.concat_eq_append])
    · intro w
      refine matchSA_eq_some.mpr ⟨name, num, hne, hchars, hnume, hnumc, ?_, rfl⟩
      simp [List.append_assoc]
  · intro s r rest h
    obtain ⟨name, num, hne, hchars, hnume, hnumc, rfl, rfl⟩ := matchSA_eq_some.mp h
    exact goodRep_of_sa hne hchars hnume hnumc hRhead hRparen

theorem mfacts_matchVar {v : List Char} (hvne : v ≠ [])
    (hv : ∀ c ∈ v, identChar c = true) : MFacts (matchVar v) := by
  refine ⟨shrinks_matchVar, ?_, ?_⟩
  · intro s r rest h
    obtain ⟨rfl, rfl⟩ := matchVar_eq_some.mp h
    refine ⟨v, by simp [List.append_assoc], ?_, ?_, ?_⟩
    · intro c hc
      exact ident_ne (hv c hc) (by decide)
    · exact parenOK_noParen fun c hc => ident_ne (hv c hc) (by decide)
    · intro w
      exact matchVar_eq_some.mpr ⟨by simp [List.append_assoc], rfl⟩
  · intro s r rest h
    obtain ⟨rfl, rfl⟩ := matchVar_eq_some.mp h
    exact goodRep_of_simple hvne hv ⟨toL ":Color::from(", by decide⟩ (by decide)

theorem mfacts_match1 : MFacts match1 :=
  mfacts_matchSimple (by decide) (by decide) ⟨toL ":Color::from(self.theme.scheme.", by decide⟩
    (by decide)

theorem mfacts_match2 : MFacts match2 :=
  mfacts_matchSimple (by decide) (by decide) ⟨toL ":Color::from(theme.scheme.", by decide⟩
    (by decide)

theorem mfacts_match3 : MFacts match3 :=
  mfacts_matchSA (by decide) (by decide) ⟨toL ":Color::from(self.theme.scheme.", by decide⟩
    (by decide)

theorem mfacts_match4 : MFacts match4 :=
  mfacts_matchSA (by decide) (by decide) ⟨toL ":Color::from(theme.scheme.", by decide⟩
    (by decide)

/-- The nine global substitution passes of the rule engine, in program
order: rules 1 to 4, then rule 5 instantiated at each hardcoded variable. -/
def engines : List Matcher :=
  [match1, match2, match3, match4,
   matchVar (toL "background_color"), matchVar (toL "border_color"),
   matchVar (toL "text_color"), matchVar (toL "surface_color"),
   matchVar (toL "counter_color")]

theorem fixBuffer_eq_chain (s : List Char) :
    fixBuffer s = engines.foldl (fun acc mp => subst mp acc) s := by
  simp only [fixBuffer, engines, colorVars, List.foldl_cons, List.foldl_nil]

theorem engines_facts : ∀ m ∈ engines, MFacts m := by
  intro m hmem
  simp only [engines, List.mem_cons, List.not_mem_nil, or_false] at hmem
  rcases hmem with rfl | rfl | rfl | rfl | rfl | rfl | rfl | rfl | rfl
  · exact mfacts_match1
  · exact mfacts_match2
  · exact mfacts_match3
  · exact mfacts_match4
  · exact mfacts_matchVar (by decide) (by decide)
  · exact mfacts_matchVar (by decide) (by decide)
  · exact mfacts_matchVar (by decide) (by decide)
  · exact mfacts_matchVar (by decide) (by decide)
  · exact mfacts_matchVar (by decide) (by decide)

theorem chain_preserve {m : Matcher} (hm : MFacts m) :
    ∀ (ms : List Matcher), (∀ mp ∈ ms, MFacts mp) → ∀ s, NoM m s →
      NoM m (ms.foldl (fun acc mp => subst mp acc) s) := by
  intro ms
  induction ms with
  | nil => exact fun _ s h => h
  | cons mp ms ih =>
    intro hf s hs
    exact ih (fun x hx => hf x (List.mem_cons_of_mem _ hx))
      (subst mp s)
      (nomatch_subst hm (hf mp (List.mem_cons_self _ _)) s fun t ht _ => hs t ht)

theorem chain_self {m : Matcher} (hm : MFacts m) (ms : List Matcher)
    (hms : ∀ mp ∈ ms, MFacts mp) (s : List Char) :
    NoM m (ms.foldl (fun acc mp => subst mp acc) (subst m s)) :=
  chain_preserve hm ms hms (subst m s) (nomatch_subst hm hm s fun _ _ h => h)

/-- After the full rule engine runs, no suffix of the output is matched by
any of the nine pattern instances: one pass removes every matchable call
site and no replacement reintroduces one. -/
theorem noM_engines : ∀ (s : List Char), ∀ m ∈ engines, NoM m (fixBuffer s) := by
  intro s m hmem
  obtain ⟨ms1, ms2, hsplit⟩ := List.append_of_mem hmem
  have hfacts1 : ∀ mp ∈ ms2, MFacts mp := by
    intro mp hmp
    refine engines_facts mp ?_
    rw [hsplit]
    exact List.mem_append_right _ (List.mem_cons_of_mem _ hmp)
  have hmf : MFacts m := engines_facts m hmem
  rw [fixBuffer_eq_chain, hsplit, List.foldl_append]
  exact chain_self hmf ms2 hfacts1 _

theorem foldl_subst_id {ms : List Matcher} {s : List Char}
    (h : ∀ m ∈ ms, NoM m s) : ms.foldl (fun acc mp => subst mp acc) s = s := by
  induction ms with
  | nil => rfl
  | cons m ms ih =>
    show ms.foldl _ (subst m s) = s
    rw [subst_id_of_noM (h m (List.mem_cons_self _ _))]
    exact ih fun mp hmp => h mp (List.mem_cons_of_mem _ hmp)

/-- Idempotence of the full rule engine. -/
theorem fixBuffer_idem (s : List Char) : fixBuffer (fixBuffer s) = fixBuffer s := by
  rw [fixBuffer_eq_chain (fixBuffer s)]
  exact foldl_subst_id fun m hm => noM_engines s m hm

theorem dropLit_append_inv {P b w r : List Char} (h : dropLit P (b ++ w) = some r) :
    (∃ t, b = P ++ t) ∨
      (b.length < P.length ∧ b = P.take b.length ∧ w = P.drop b.length ++ r) := by
  have heq : b ++ w = P ++ r := dropLit_eq_some.mp h
  rcases append_eq_cases heq with ⟨t, ht⟩ | ⟨hlt, htk⟩
  · exact Or.inl ⟨t, ht⟩
  · refine Or.inr ⟨hlt, htk, ?_⟩
    have h2 := congrArg (List.drop b.length) heq
    rwa [List.drop_left, List.drop_append_eq_append_drop,
      Nat.sub_eq_zero_of_le (Nat.le_of_lt hlt), List.drop_zero] at h2

theorem head_mem_of_dropLit {P b w r : List Char} {c : Char}
    (h : dropLit P (b ++ w) = some r) (hbne : b ≠ []) (hP : P.head? = some c) :
    c ∈ b := by
  cases b with
  | nil => exact absurd rfl hbne
  | cons d b' =>
    cases P with
    | nil => exact absurd hP (by simp)
    | cons e P' =>
      have he : e = c := by simpa using hP
      rw [show (d :: b') ++ w = d :: (b' ++ w) from rfl, dropLit] at h
      by_cases hde : d == e
      · rw [← he, show d = e from by simpa using hde]
        exact List.mem_cons_self _ _
      · rw [if_neg hde] at h
        exact absurd h (by simp)

theorem sfx_eq_drop {b s : List Char} (h : Sfx b s) :
    b = s.drop (s.length - b.length) := by
  obtain ⟨a, rfl⟩ := h
  rw [List.length_append, Nat.add_sub_cancel, List.drop_left]

theorem dropLit_cancel {L1 L2 s : List Char} :
    dropLit (L1 ++ L2) (L1 ++ s) = dropLit L2 s := by
  induction L1 with
  | nil => rfl
  | cons c L1 ih => simp [dropLit, ih]

theorem matchSimple_none {P R s : List Char} (h : dropLit P s = none) :
    matchSimple P R s = none := by
  simp only [matchSimple, h]

theorem matchSA_none {P R s : List Char} (h : dropLit P s = none) :
    matchSA P R s = none := by
  simp only [matchSA, h]

/-- Scanning junction: a position strictly inside dot-free text followed by
`w` cannot begin a `self\.theme\.scheme\.` literal match unless the first
four characters of `w` complete one of the four possible literal overhangs. -/
theorem junction_pre1 {b w : List Char} (hb : '.' ∉ b) (hbne : b ≠ [])
    (hw : w.take 4 ≠ toL "elf." ∧ w.take 4 ≠ toL "lf.t" ∧ w.take 4 ≠ toL "f.th" ∧
      w.take 4 ≠ toL ".the") :
    dropLit pre1 (b ++ w) = none := by
  cases hd : dropLit pre1 (b ++ w) with
  | none => rfl
  | some r =>
    exfalso
    rcases dropLit_append_inv hd with ⟨t, ht⟩ | ⟨hlt, htk, hw2⟩
    · refine hb ?_
      rw [ht]
      exact List.mem_append_left _ (by decide)
    · have hble : b.length ≤ 4 := by
        by_contra hgt
        push_neg at hgt
        refine hb ?_
        rw [htk, show b.length = 5 + (b.length - 5) from by omega, List.take_add]
        exact List.mem_append_left _ (by decide)
      obtain ⟨k, hkk⟩ : ∃ k, b.length = k := ⟨_, rfl⟩
      rw [hkk] at hw2 hble
      have hk1 : 1 ≤ k := by
        rcases Nat.eq_zero_or_pos k with h0 | h1
        · rw [h0] at hkk
          exact absurd (List.length_eq_zero.mp hkk) hbne
        · exact h1
      interval_cases k
      · exact hw.1 (by rw [hw2]; rfl)
      · exact hw.2.1 (by rw [hw2]; rfl)
      · exact hw.2.2.1 (by rw [hw2]; rfl)
      · exact hw.2.2.2 (by rw [hw2]; rfl)

/-- Scanning junction for the `theme\.scheme\.` literal, by the same
overhang analysis. -/
theorem junction_pre2 {b w : List Char} (hb : '.' ∉ b) (hbne : b ≠ [])
    (hw : w.take 4 ≠ toL "heme" ∧ w.take 4 ≠ toL "eme." ∧ w.take 4 ≠ toL "me.s" ∧
      w.take 4 ≠ toL "e.sc" ∧ w.take 4 ≠ toL ".sch") :
    dropLit pre2 (b ++ w) = none := by
  cases hd : dropLit pre2 (b ++ w) with
  | none => rfl
  | some r =>
    exfalso
    rcases dropLit_append_inv hd with ⟨t, ht⟩ | ⟨hlt, htk, hw2⟩
    · refine hb ?_
      rw [ht]
      exact List.mem_append_left _ (by decide)
    · have hble : b.length ≤ 5 := by
        by_contra hgt
        push_neg at hgt
        refine hb ?_
        rw [htk, show b.length = 6 + (b.length - 6) from by omega, List.take_add]
        exact List.mem_append_left _ (by decide)
      obtain ⟨k, hkk⟩ : ∃ k, b.length = k := ⟨_, rfl⟩
      rw [hkk] at hw2 hble
      have hk1 : 1 ≤ k := by
        rcases Nat.eq_zero_or_pos k with h0 | h1
        · rw [h0] at hkk
          exact absurd (List.length_eq_zero.mp hkk) hbne
        · exact h1
      interval_cases k
      · exact hw.1 (by rw [hw2]; rfl)
      · exact hw.2.1 (by rw [hw2]; rfl)
      · exact hw.2.2.1 (by rw [hw2]; rfl)
      · exact hw.2.2.2.1 (by rw [hw2]; rfl)
      · exact hw.2.2.2.2 (by rw [hw2]; rfl)

/-- Scanning junction for a rule-5 variable pattern: inside dot-free text
followed by `w`, the pattern `v.into()` cannot start unless `w` begins with
a character of `v` or a dot. -/
theorem junction_var {v b w : List Char} (hb : '.' ∉ b) (hbne : b ≠ [])
    (hw : ∀ c, w.head? = some c → c ∉ v ∧ c ≠ '.') :
    matchVar v (b ++ w) = none := by
  cases hmv : matchVar v (b ++ w) with
  | none => rfl
  | some pr =>
    exfalso
    obtain ⟨r, rest⟩ := pr
    obtain ⟨heq, _⟩ := matchVar_eq_some.mp hmv
    -- b ++ w = v ++ (intoL ++ rest)
    rcases append_eq_cases heq with ⟨t, ht⟩ | ⟨hlt, htk⟩
    · -- b = v ++ t; then t ++ w starts with intoL, i.e. a dot
      have hw2 : t ++ w = intoL ++ rest := by
        have h2 := congrArg (List.drop v.length) heq
        rwa [ht, List.append_assoc, List.drop_left, List.drop_left] at h2
      cases t with
      | nil =>
        have hh : w.head? = some '.' := by
          have hw3 : w = intoL ++ rest := by simpa using hw2
          rw [hw3]
          rfl
        exact (hw '.' hh).2 rfl
      | cons c t' =>
        have hc : c = '.' := by
          have h3 := congrArg List.head? hw2
          have h4 : ((c :: t') ++ w).head? = some c := rfl
          have h5 : (intoL ++ rest).head? = some '.' := rfl
          rw [h4, h5] at h3
          exact Option.some.inj h3
        refine hb ?_
        rw [ht, hc]
        exact List.mem_append_right _ (List.mem_cons_self _ _)
    · -- b = v.take |b| with |b| < |v|: w must start with a character of v
      have hw2 : w = v.drop b.length ++ (intoL ++ rest) := by
        have h2 := congrArg (List.drop b.length) heq
        rwa [List.drop_left, List.drop_append_eq_append_drop,
          Nat.sub_eq_zero_of_le (Nat.le_of_lt hlt), List.drop_zero] at h2
      have hne2 : v.drop b.length ≠ [] := by
        intro hnil
        have := congrArg List.length hnil
        rw [List.length_drop] at this
        simp at this
        omega
      cases hvd : v.drop b.length with
      | nil => exact hne2 hvd
      | cons c vd =>
        have hh : w.head? = some c := by
          rw [hw2, hvd]
          rfl
        have hcv : c ∈ v := by
          have : c ∈ v.drop b.length := by rw [hvd]; exact List.mem_cons_self _ _
          exact List.mem_of_mem_drop this
        exact (hw c hh).1 hcv

theorem claim1_phase1 {p q name : List Char} (hp : '.' ∉ p) (hq : '.' ∉ q)
    (hname : name ≠ []) (hchars : ∀ c ∈ name, identChar c = true) :
    subst match1 (p ++ (pre1 ++ (name ++ (intoL ++ q))))
      = p ++ ((rh1 ++ name ++ [')']) ++ q) := by
  have hjunc : ∀ b, Sfx b p → b ≠ [] →
      match1 (b ++ (pre1 ++ (name ++ (intoL ++ q)))) = none := by
    intro b hb hbne
    refine matchSimple_none (junction_pre1 (fun hm => hp (sfx_mem hb hm)) hbne ?_)
    have h4 : (pre1 ++ (name ++ (intoL ++ q))).take 4 = toL "self" := rfl
    exact ⟨by rw [h4]; decide, by rw [h4]; decide, by rw [h4]; decide, by rw [h4]; decide⟩
  rw [subst_append_noM hjunc]
  have hx : match1 (pre1 ++ (name ++ (intoL ++ q))) = some (rh1 ++ name ++ [')'], q) :=
    matchSimple_eq_some.mpr ⟨name, hname, hchars, rfl, rfl⟩
  have hshr : Shrinks match1 := shrinks_matchSimple
  have hdot1 : HasDot match1 := hasDot_matchSimple
  rw [subst_some hshr hx (List.cons_ne_nil 's' _),
    subst_id_of_noM (noM_dotfree hdot1 hq)]

/-- No rule matches anywhere in text of the form dot-free prefix, inserted
replacement, dot-free tail. -/
theorem noM_engine_sandwich {m : Matcher} (hmem : m ∈ engines) {p rep q : List Char}
    (hp : '.' ∉ p) (hq : '.' ∉ q) (hgr : GoodRep rep) (h4 : rep.take 4 = toL "iced") :
    NoM m (p ++ (rep ++ q)) := by
  have hlen4 : 4 ≤ rep.length := by
    have hl := congrArg List.length h4
    rw [List.length_take] at hl
    have h4' : (toL "iced").length = 4 := by decide
    rw [h4'] at hl
    omega
  have hw4 : (rep ++ q).take 4 = toL "iced" := by
    rw [List.take_append_eq_append_take, Nat.sub_eq_zero_of_le hlen4, List.take_zero,
      List.append_nil, h4]
  have hwh : (rep ++ q).head? = some 'i' := by
    have hr : rep = toL "iced" ++ rep.drop 4 := by
      conv_lhs => rw [← List.take_append_drop 4 rep]
      rw [h4]
    rw [hr, List.append_assoc]
    rfl
  have hvarw : ∀ v : List Char, 'i' ∉ v →
      ∀ c, (rep ++ q).head? = some c → c ∉ v ∧ c ≠ '.' := by
    intro v hv c hc
    rw [hwh] at hc
    rw [← Option.some.inj hc]
    exact ⟨hv, by decide⟩
  have hbdot : ∀ b, Sfx b p → '.' ∉ b := fun b hb hm => hp (sfx_mem hb hm)
  simp only [engines, List.mem_cons, List.not_mem_nil, or_false] at hmem
  rcases hmem with rfl | rfl | rfl | rfl | rfl | rfl | rfl | rfl | rfl
  · refine noM_append ?_ (noM_append ?_ (noM_dotfree hasDot_matchSimple hq))
    · intro b hb hbne
      refine matchSimple_none (junction_pre1 (hbdot b hb) hbne ?_)
      exact ⟨by rw [hw4]; decide, by rw [hw4]; decide, by rw [hw4]; decide,
        by rw [hw4]; decide⟩
    · exact fun r2 hr2 hne2 => noStartInRep mfacts_match1 hgr r2 hr2 hne2 q
  · refine noM_append ?_ (noM_append ?_ (noM_dotfree hasDot_matchSimple hq))
    · intro b hb hbne
      refine matchSimple_none (junction_pre2 (hbdot b hb) hbne ?_)
      exact ⟨by rw [hw4]; decide, by rw [hw4]; decide, by rw [hw4]; decide,
        by rw [hw4]; decide, by rw [hw4]; decide⟩
    · exact fun r2 hr2 hne2 => noStartInRep mfacts_match2 hgr r2 hr2 hne2 q
  · refine noM_append ?_ (noM_append ?_ (noM_dotfree hasDot_matchSA hq))
    · intro b hb hbne
      refine matchSA_none (junction_pre1 (hbdot b hb) hbne ?_)
      exact ⟨by rw [hw4]; decide, by rw [hw4]; decide, by rw [hw4]; decide,
        by rw [hw4]; decide⟩
    · exact fun r2 hr2 hne2 => noStartInRep mfacts_match3 hgr r2 hr2 hne2 q
  · refine noM_append ?_ (noM_append ?_ (noM_dotfree hasDot_matchSA hq))
    · intro b hb hbne
      refine matchSA_none (junction_pre2 (hbdot b hb) hbne ?_)
      exact ⟨by rw [hw4]; decide, by rw [hw4]; decide, by rw [hw4]; decide,
        by rw [hw4]; decide, by rw [hw4]; decide⟩
    · exact fun r2 hr2 hne2 => noStartInRep mfacts_match4 hgr r2 hr2 hne2 q
  · refine noM_append ?_ (noM_append ?_ (noM_dotfree hasDot_matchVar hq))
    · exact fun b hb hbne => junction_var (hbdot b hb) hbne (hvarw _ (by decide))
    · exact fun r2 hr2 hne2 =>
        noStartInRep (mfacts_matchVar (by decide) (by decide)) hgr r2 hr2 hne2 q
  · refine noM_append ?_ (noM_append ?_ (noM_dotfree hasDot_matchVar hq))
    · exact fun b hb hbne => junction_var (hbdot b hb) hbne (hvarw _ (by decide))
    · exact fun r2 hr2 hne2 =>
        noStartInRep (mfacts_matchVar (by decide) (by decide)) hgr r2 hr2 hne2 q
  · refine noM_append ?_ (noM_append ?_ (noM_dotfree hasDot_matchVar hq))
    · exact fun b hb hbne => junction_var (hbdot b hb) hbne (hvarw _ (by decide))
    · exact fun r2 hr2 hne2 =>
        noStartInRep (mfacts_matchVar (by decide) (by decide)) hgr r2 hr2 hne2 q
  · refine noM_append ?_ (noM_append ?_ (noM_dotfree hasDot_matchVar hq))
    · exact fun b hb hbne => junction_var (hbdot b hb) hbne (hvarw _ (by decide))
    · exact fun r2 hr2 hne2 =>
        noStartInRep (mfacts_matchVar (by decide) (by decide)) hgr r2 hr2 hne2 q
  · refine noM_append ?_ (noM_append ?_ (noM_dotfree hasDot_matchVar hq))
    · exact fun b hb hbne => junction_var (hbdot b hb) hbne (hvarw _ (by decide))
    · exact fun r2 hr2 hne2 =>
        noStartInRep (mfacts_matchVar (by decide) (by decide)) hgr r2 hr2 hne2 q

theorem engines_tail_sub : ∀ x ∈ [match2, match3, match4,
    matchVar (toL "background_color"), matchVar (toL "border_color"),
    matchVar (toL "text_color"), matchVar (toL "surface_color"),
    matchVar (toL "counter_color")], x ∈ engines := by
  intro x hx
  simp only [List.mem_cons, List.not_mem_nil, or_false] at hx
  rcases hx with rfl | rfl | rfl | rfl | rfl | rfl | rfl | rfl <;> simp [engines]

/-- Claim C1: an input text consisting of an occurrence of rule 1's pattern
`self.theme.scheme.<name>.into()` (with `<name>` a non-empty string of
letters and underscores) surrounded by dot-free text is rewritten by the
rule engine to exactly `iced::Color::from(self.theme.scheme.<name>)`, with
the name preserved character-for-character and all surrounding text
(including a trailing semicolon) unchanged. -/
theorem claim_C1_rule1_rewrite (p q name : List Char) (hp : '.' ∉ p) (hq : '.' ∉ q)
    (hname : name ≠ []) (hchars : ∀ c ∈ name, identChar c = true) :
    fixBuffer (p ++ (pre1 ++ (name ++ (intoL ++ q))))
      = p ++ ((rh1 ++ name ++ [')']) ++ q) := by
  have hgr : GoodRep (rh1 ++ name ++ [')']) :=
    goodRep_of_simple hname hchars ⟨toL ":Color::from(self.theme.scheme.", by decide⟩
      (by decide)
  have h4 : (rh1 ++ name ++ [')']).take 4 = toL "iced" := by
    have he : rh1 ++ name ++ [')']
        = toL "iced" ++ (toL "::Color::from(self.theme.scheme." ++ (name ++ [')'])) := by
      rw [show rh1 = toL "iced" ++ toL "::Color::from(self.theme.scheme." from by decide]
      simp [List.append_assoc]
    rw [he]
    rfl
  rw [fixBuffer_eq_chain,
    show engines = match1 :: [match2, match3, match4,
      matchVar (toL "background_color"), matchVar (toL "border_color"),
      matchVar (toL "text_color"), matchVar (toL "surface_color"),
      matchVar (toL "counter_color")] from rfl,
    List.foldl_cons, claim1_phase1 hp hq hname hchars]
  exact foldl_subst_id fun m hm =>
    noM_engine_sandwich (engines_tail_sub m hm) hp hq hgr h4

theorem claim_C1_rule1_rewrite_witness :
    fixBuffer (toL "let c = self.theme.scheme.background.into();")
      = toL "let c = iced::Color::from(self.theme.scheme.background);" := by
  have h := claim_C1_rule1_rewrite (toL "let c = ") (toL ";") (toL "background")
    (by decide) (by decide) (by decide) (by decide)
  have e1 : toL "let c = " ++ (pre1 ++ (toL "background" ++ (intoL ++ toL ";")))
      = toL "let c = self.theme.scheme.background.into();" := by decide
  have e2 : toL "let c = " ++ ((rh1 ++ toL "background" ++ [')']) ++ toL ";")
      = toL "let c = iced::Color::from(self.theme.scheme.background);" := by decide
  rw [e1, e2] at h
  exact h

theorem sfx_length {b s : List Char} (h : Sfx b s) : b.length ≤ s.length := by
  obtain ⟨a, rfl⟩ := h
  simp

theorem sfx_dropLit_inv {P C b w r : List Char} (hb : Sfx b C) (hbne : b ≠ [])
    (h : dropLit P (b ++ w) = some r) :
    (∃ t, b = P ++ t ∧ Sfx (P ++ t) C) ∨
      (∃ k, 1 ≤ k ∧ k < P.length ∧ k ≤ C.length ∧
        P.take k = C.drop (C.length - k)) := by
  rcases dropLit_append_inv h with ⟨t, ht⟩ | ⟨hlt, htk, _⟩
  · exact Or.inl ⟨t, ht, ht ▸ hb⟩
  · refine Or.inr ⟨b.length, ?_, hlt, sfx_length hb, ?_⟩
    · cases b with
      | nil => exact absurd rfl hbne
      | cons c b' => simp
    · rw [← htk]
      exact sfx_eq_drop hb

theorem sfx_append_eq {P t C : List Char} (h : Sfx (P ++ t) C) :
    P ++ t = C.drop (C.length - (P.length + t.length)) := by
  have h2 := sfx_eq_drop h
  rwa [List.length_append] at h2

theorem dropLit_intoL_saL {X : List Char} : dropLit intoL (saL ++ X) = none := by
  cases h : dropLit intoL (saL ++ X) with
  | none => rfl
  | some r =>
    exfalso
    have heq := dropLit_eq_some.mp h
    have htake := congrArg (List.take 2) heq
    have ha : (saL ++ X).take 2 = toL ".s" := rfl
    have hb : (intoL ++ r).take 2 = toL ".i" := rfl
    rw [ha, hb] at htake
    exact absurd htake (by decide)

/-- Rules 1 and 2 never match at the very start of an alpha-scaling call
site: after the identifier run the pattern requires `.into()` but the text
continues with `.scale_alpha(`. -/
theorem matchSimple_fails_on_sa {P R name X : List Char}
    (hchars : ∀ c ∈ name, identChar c = true) :
    matchSimple P R (P ++ (name ++ (saL ++ X))) = none := by
  have hform : name ++ (saL ++ X) = name ++ ('.' :: (toL "scale_alpha(" ++ X)) := rfl
  have hsplit := takeWhile_append_stop hchars
    (show identChar '.' = false by decide) (toL "scale_alpha(" ++ X)
  by_cases hne : name = []
  · subst hne
    simp only [matchSimple, dropLit_self]
    have ht : (([] : List Char) ++ (saL ++ X)).takeWhile identChar = [] := by
      rw [show ([] : List Char) ++ (saL ++ X) = '.' :: (toL "scale_alpha(" ++ X) from rfl]
      simp [List.takeWhile_cons, show identChar '.' = false from by decide]
    rw [ht]
    simp
  · simp only [matchSimple, dropLit_self, hform, hsplit.1, hsplit.2, if_neg hne]
    rw [show ('.' : Char) :: (toL "scale_alpha(" ++ X) = saL ++ X from rfl,
      dropLit_intoL_saL]

theorem noM_match1_sacore {name num q : List Char} (hq : '.' ∉ q)
    (hchars : ∀ c ∈ name, identChar c = true) (hnumc : ∀ c ∈ num, numChar c = true) :
    NoM match1 (name ++ (saL ++ (num ++ (')' :: (intoL ++ q))))) := by
  have hqn : NoM match1 q := noM_dotfree hasDot_matchSimple hq
  have htail : NoM match1 (')' :: (intoL ++ q)) := by
    have h2 : NoM match1 ((')' :: intoL) ++ q) := by
      refine noM_append ?_ hqn
      intro b hb hbne
      cases hm : match1 (b ++ q) with
      | none => rfl
      | some pr =>
        exfalso
        obtain ⟨r, rest⟩ := pr
        obtain ⟨name', _, _, heq, _⟩ := matchSimple_eq_some.mp hm
        have hd : dropLit pre1 (b ++ q) = some (name' ++ (intoL ++ rest)) :=
          dropLit_eq_some.mpr heq
        rcases sfx_dropLit_inv hb hbne hd with ⟨t, _, hst⟩ | ⟨k, hk1, hkP, hkC, hkeq⟩
        · have hlen := sfx_length hst
          rw [List.length_append] at hlen
          have h18 : pre1.length = 18 := by decide
          have hC : (')' :: intoL).length = 8 := by decide
          rw [h18, hC] at hlen
          omega
        · have h18 : pre1.length = 18 := by decide
          have hC : (')' :: intoL).length = 8 := by decide
          rw [h18] at hkP
          rw [hC] at hkC hkeq
          revert hkeq
          interval_cases k <;> decide
    exact h2
  have hnum : NoM match1 (num ++ (')' :: (intoL ++ q))) := by
    refine noM_append ?_ htail
    intro b hb hbne
    cases hm : match1 (b ++ (')' :: (intoL ++ q))) with
    | none => rfl
    | some pr =>
      exfalso
      obtain ⟨r, rest⟩ := pr
      obtain ⟨name', _, _, heq, _⟩ := matchSimple_eq_some.mp hm
      have hd : dropLit pre1 (b ++ (')' :: (intoL ++ q)))
          = some (name' ++ (intoL ++ rest)) := dropLit_eq_some.mpr heq
      have hs : 's' ∈ b := head_mem_of_dropLit hd hbne rfl
      exact absurd (hnumc 's' (sfx_mem hb hs)) (by decide)
  have hsa : NoM match1 (saL ++ (num ++ (')' :: (intoL ++ q)))) := by
    refine noM_append ?_ hnum
    intro b hb hbne
    cases hm : match1 (b ++ (num ++ (')' :: (intoL ++ q)))) with
    | none => rfl
    | some pr =>
      exfalso
      obtain ⟨r, rest⟩ := pr
      obtain ⟨name', _, _, heq, _⟩ := matchSimple_eq_some.mp hm
      have hd : dropLit pre1 (b ++ (num ++ (')' :: (intoL ++ q))))
          = some (name' ++ (intoL ++ rest)) := dropLit_eq_some.mpr heq
      rcases sfx_dropLit_inv hb hbne hd with ⟨t, _, hst⟩ | ⟨k, hk1, hkP, hkC, hkeq⟩
      · have hlen := sfx_length hst
        rw [List.length_append] at hlen
        have h18 : pre1.length = 18 := by decide
        have hC : saL.length = 13 := by decide
        rw [h18, hC] at hlen
        omega
      · have h18 : pre1.length = 18 := by decide
        have hC : saL.length = 13 := by decide
        rw [h18] at hkP
        rw [hC] at hkC hkeq
        revert hkeq
        interval_cases k <;> decide
  have hname2 : NoM match1 (name ++ (saL ++ (num ++ (')' :: (intoL ++ q))))) := by
    refine noM_append ?_ hsa
    intro b hb hbne
    refine matchSimple_none (junction_pre1 ?_ hbne ?_)
    · intro hdotb
      exact absurd (hchars '.' (sfx_mem hb hdotb)) (by decide)
    · have h4 : (saL ++ (num ++ (')' :: (intoL ++ q)))).take 4 = toL ".sca" := rfl
      exact ⟨by rw [h4]; decide, by rw [h4]; decide, by rw [h4]; decide,
        by rw [h4]; decide⟩
  exact hname2

theorem noM_match1_occ3 {name num q : List Char} (hq : '.' ∉ q)
    (hchars : ∀ c ∈ name, identChar c = true) (hnumc : ∀ c ∈ num, numChar c = true) :
    NoM match1 (pre1 ++ (name ++ (saL ++ (num ++ (')' :: (intoL ++ q)))))) := by
  refine noM_append ?_ (noM_match1_sacore hq hchars hnumc)
  intro b hb hbne
  cases hm : match1 (b ++ (name ++ (saL ++ (num ++ (')' :: (intoL ++ q)))))) with
  | none => rfl
  | some pr =>
    exfalso
    obtain ⟨r, rest⟩ := pr
    obtain ⟨name', _, _, heq, _⟩ := matchSimple_eq_some.mp hm
    have hd : dropLit pre1 (b ++ (name ++ (saL ++ (num ++ (')' :: (intoL ++ q))))))
        = some (name' ++ (intoL ++ rest)) := dropLit_eq_some.mpr heq
    rcases sfx_dropLit_inv hb hbne hd with ⟨t, hbt, hst⟩ | ⟨k, hk1, hkP, hkC, hkeq⟩
    · have hlen := sfx_length hst
      rw [List.length_append] at hlen
      have h18 : pre1.length = 18 := by decide
      rw [h18] at hlen
      have ht0 : t = [] := List.length_eq_zero.mp (by omega)
      subst ht0
      rw [List.append_nil] at hbt
      subst hbt
      have hnone : match1 (pre1 ++ (name ++ (saL ++ (num ++ (')' :: (intoL ++ q))))))
          = none := matchSimple_fails_on_sa hchars
      rw [hnone] at hm
      exact Option.noConfusion hm
    · have h18 : pre1.length = 18 := by decide
      rw [h18] at hkP hkeq
      revert hkeq
      interval_cases k <;> decide

theorem noM_match2_sacore {name num q : List Char} (hq : '.' ∉ q)
    (hchars : ∀ c ∈ name, identChar c = true) (hnumc : ∀ c ∈ num, numChar c = true) :
    NoM match2 (name ++ (saL ++ (num ++ (')' :: (intoL ++ q))))) := by
  have hqn : NoM match2 q := noM_dotfree hasDot_matchSimple hq
  have htail : NoM match2 (')' :: (intoL ++ q)) := by
    have h2 : NoM match2 ((')' :: intoL) ++ q) := by
      refine noM_append ?_ hqn
      intro b hb hbne
      cases hm : match2 (b ++ q) with
      | none => rfl
      | some pr =>
        exfalso
        obtain ⟨r, rest⟩ := pr
        obtain ⟨name', _, _, heq, _⟩ := matchSimple_eq_some.mp hm
        have hd : dropLit pre2 (b ++ q) = some (name' ++ (intoL ++ rest)) :=
          dropLit_eq_some.mpr heq
        rcases sfx_dropLit_inv hb hbne hd with ⟨t, _, hst⟩ | ⟨k, hk1, hkP, hkC, hkeq⟩
        · have hlen := sfx_length hst
          rw [List.length_append] at hlen
          have h13 : pre2.length = 13 := by decide
          have hC : (')' :: intoL).length = 8 := by decide
          rw [h13, hC] at hlen
          omega
        · have h13 : pre2.length = 13 := by decide
          have hC : (')' :: intoL).length = 8 := by decide
          rw [h13] at hkP
          rw [hC] at hkC hkeq
          revert hkeq
          interval_cases k <;> decide
    exact h2
  have hnum : NoM match2 (num ++ (')' :: (intoL ++ q))) := by
    refine noM_append ?_ htail
    intro b hb hbne
    cases hm : match2 (b ++ (')' :: (intoL ++ q))) with
    | none => rfl
    | some pr =>
      exfalso
      obtain ⟨r, rest⟩ := pr
      obtain ⟨name', _, _, heq, _⟩ := matchSimple_eq_some.mp hm
      have hd : dropLit pre2 (b ++ (')' :: (intoL ++ q)))
          = some (name' ++ (intoL ++ rest)) := dropLit_eq_some.mpr heq
      have hs : 't' ∈ b := head_mem_of_dropLit hd hbne rfl
      exact absurd (hnumc 't' (sfx_mem hb hs)) (by decide)
  have hsa : NoM match2 (saL ++ (num ++ (')' :: (intoL ++ q)))) := by
    refine noM_append ?_ hnum
    intro b hb hbne
    cases hm : match2 (b ++ (num ++ (')' :: (intoL ++ q)))) with
    | none => rfl
    | some pr =>
      exfalso
      obtain ⟨r, rest⟩ := pr
      obtain ⟨name', _, _, heq, _⟩ := matchSimple_eq_some.mp hm
      have hd : dropLit pre2 (b ++ (num ++ (')' :: (intoL ++ q))))
          = some (name' ++ (intoL ++ rest)) := dropLit_eq_some.mpr heq
      rcases sfx_dropLit_inv hb hbne hd with ⟨t, _, hst⟩ | ⟨k, hk1, hkP, hkC, hkeq⟩
      · have heq2 := sfx_append_eq hst
        have hlen := sfx_length hst
        rw [List.length_append] at hlen
        have h13 : pre2.length = 13 := by decide
        have hC : saL.length = 13 := by decide
        rw [h13, hC] at hlen
        rw [h13, hC] at heq2
        have ht0 : t = [] := List.length_eq_zero.mp (by omega)
        subst ht0
        rw [List.append_nil] at heq2
        simp at heq2
        exact absurd heq2 (by decide)
      · have h13 : pre2.length = 13 := by decide
        have hC : saL.length = 13 := by decide
        rw [h13] at hkP
        rw [hC] at hkC hkeq
        revert hkeq
        interval_cases k <;> decide
  have hname2 : NoM match2 (name ++ (saL ++ (num ++ (')' :: (intoL ++ q))))) := by
    refine noM_append ?_ hsa
    intro b hb hbne
    refine matchSimple_none (junction_pre2 ?_ hbne ?_)
    · intro hdotb
      exact absurd (hchars '.' (sfx_mem hb hdotb)) (by decide)
    · have h4 : (saL ++ (num ++ (')' :: (intoL ++ q)))).take 4 = toL ".sca" := rfl
      exact ⟨by rw [h4]; decide, by rw [h4]; decide, by rw [h4]; decide,
        by rw [h4]; decide, by rw [h4]; decide⟩
  exact hname2

theorem noM_match2_occ3 {name num q : List Char} (hq : '.' ∉ q)
    (hchars : ∀ c ∈ name, identChar c = true) (hnumc : ∀ c ∈ num, numChar c = true) :
    NoM match2 (pre1 ++ (name ++ (saL ++ (num ++ (')' :: (intoL ++ q)))))) := by
  refine noM_append ?_ (noM_match2_sacore hq hchars hnumc)
  intro b hb hbne
  cases hm : match2 (b ++ (name ++ (saL ++ (num ++ (')' :: (intoL ++ q)))))) with
  | none => rfl
  | some pr =>
    exfalso
    obtain ⟨r, rest⟩ := pr
    obtain ⟨name', _, _, heq, _⟩ := matchSimple_eq_some.mp hm
    have hd : dropLit pre2 (b ++ (name ++ (saL ++ (num ++ (')' :: (intoL ++ q))))))
        = some (name' ++ (intoL ++ rest)) := dropLit_eq_some.mpr heq
    rcases sfx_dropLit_inv hb hbne hd with ⟨t, hbt, hst⟩ | ⟨k, hk1, hkP, hkC, hkeq⟩
    · have heq2 := sfx_append_eq hst
      have hlen := sfx_length hst
      rw [List.length_append] at hlen
      have h13 : pre2.length = 13 := by decide
      have h18 : pre1.length = 18 := by decide
      rw [h13, h18] at hlen
      rw [h13, h18] at heq2
      obtain ⟨k, hkk⟩ : ∃ k, t.length = k := ⟨_, rfl⟩
      rw [hkk] at hlen
      rw [hkk] at heq2
      have hk5 : k ≤ 5 := by omega
      have h13' : (13 : Nat) = pre2.length := by decide
      interval_cases k
      · have ht0 : t = [] := List.length_eq_zero.mp hkk
        subst ht0
        rw [List.append_nil] at hbt
        subst hbt
        have hnone : match2 (pre2 ++ (name ++ (saL ++ (num ++ (')' :: (intoL ++ q))))))
            = none := matchSimple_fails_on_sa hchars
        rw [hnone] at hm
        exact Option.noConfusion hm
      · have h2 := congrArg (List.take 13) heq2
        rw [h13', List.take_left] at h2
        exact absurd h2 (by decide)
      · have h2 := congrArg (List.take 13) heq2
        rw [h13', List.take_left] at h2
        exact absurd h2 (by decide)
      · have h2 := congrArg (List.take 13) heq2
        rw [h13', List.take_left] at h2
        exact absurd h2 (by decide)
      · have h2 := congrArg (List.take 13) heq2
        rw [h13', List.take_left] at h2
        exact absurd h2 (by decide)
      · have h2 := congrArg (List.take 13) heq2
        rw [h13', List.take_left] at h2
        exact absurd h2 (by decide)
    · have h13 : pre2.length = 13 := by decide
      have h18 : pre1.length = 18 := by decide
      rw [h13] at hkP
      rw [h18] at hkC hkeq
      revert hkeq
      interval_cases k <;> decide

theorem noM_match1_occ4 {name num q : List Char} (hq : '.' ∉ q)
    (hchars : ∀ c ∈ name, identChar c = true) (hnumc : ∀ c ∈ num, numChar c = true) :
    NoM match1 (pre2 ++ (name ++ (saL ++ (num ++ (')' :: (intoL ++ q)))))) := by
  refine noM_append ?_ (noM_match1_sacore hq hchars hnumc)
  intro b hb hbne
  cases hm : match1 (b ++ (name ++ (saL ++ (num ++ (')' :: (intoL ++ q)))))) with
  | none => rfl
  | some pr =>
    exfalso
    obtain ⟨r, rest⟩ := pr
    obtain ⟨name', _, _, heq, _⟩ := matchSimple_eq_some.mp hm
    have hd : dropLit pre1 (b ++ (name ++ (saL ++ (num ++ (')' :: (intoL ++ q))))))
        = some (name' ++ (intoL ++ rest)) := dropLit_eq_some.mpr heq
    rcases sfx_dropLit_inv hb hbne hd with ⟨t, _, hst⟩ | ⟨k, hk1, hkP, hkC, hkeq⟩
    · have hlen := sfx_length hst
      rw [List.length_append] at hlen
      have h18 : pre1.length = 18 := by decide
      have h13 : pre2.length = 13 := by decide
      rw [h18, h13] at hlen
      omega
    · have h18 : pre1.length = 18 := by decide
      have h13 : pre2.length = 13 := by decide
      rw [h18] at hkP
      rw [h13] at hkC hkeq
      revert hkeq
      interval_cases k <;> decide

theorem noM_match2_occ4 {name num q : List Char} (hq : '.' ∉ q)
    (hchars : ∀ c ∈ name, identChar c = true) (hnumc : ∀ c ∈ num, numChar c = true) :
    NoM match2 (pre2 ++ (name ++ (saL ++ (num ++ (')' :: (intoL ++ q)))))) := by
  refine noM_append ?_ (noM_match2_sacore hq hchars hnumc)
  intro b hb hbne
  cases hm : match2 (b ++ (name ++ (saL ++ (num ++ (')' :: (intoL ++ q)))))) with
  | none => rfl
  | some pr =>
    exfalso
    obtain ⟨r, rest⟩ := pr
    obtain ⟨name', _, _, heq, _⟩ := matchSimple_eq_some.mp hm
    have hd : dropLit pre2 (b ++ (name ++ (saL ++ (num ++ (')' :: (intoL ++ q))))))
        = some (name' ++ (intoL ++ rest)) := dropLit_eq_some.mpr heq
    rcases sfx_dropLit_inv hb hbne hd with ⟨t, hbt, hst⟩ | ⟨k, hk1, hkP, hkC, hkeq⟩
    · have heq2 := sfx_append_eq hst
      have hlen := sfx_length hst
      rw [List.length_append] at hlen
      have h13 : pre2.length = 13 := by decide
      rw [h13] at hlen
      rw [h13] at heq2
      have ht0 : t = [] := List.length_eq_zero.mp (by omega)
      subst ht0
      rw [List.append_nil] at hbt
      subst hbt
      have hnone : match2 (pre2 ++ (name ++ (saL ++ (num ++ (')' :: (intoL ++ q))))))
          = none := matchSimple_fails_on_sa hchars
      rw [hnone] at hm
      exact Option.noConfusion hm
    · have h13 : pre2.length = 13 := by decide
      rw [h13] at hkP hkC hkeq
      revert hkeq
      interval_cases k <;> decide

/-- Claim C9: rules 1 and 2 never match an occurrence of the alpha-scaling
form, qualified or unqualified, because their patterns require `.into()` to
follow the identifier immediately; the text is therefore still intact when
rules 3 and 4 run, and they match it. -/
theorem claim_C9_rules12_skip_alpha (name num : List Char) (hname : name ≠ [])
    (hchars : ∀ c ∈ name, identChar c = true) (hnume : num ≠ [])
    (hnumc : ∀ c ∈ num, numChar c = true) :
    (subst match2 (subst match1
        (pre1 ++ (name ++ (saL ++ (num ++ (')' :: intoL))))))
      = pre1 ++ (name ++ (saL ++ (num ++ (')' :: intoL)))))
    ∧ (subst match2 (subst match1
        (pre2 ++ (name ++ (saL ++ (num ++ (')' :: intoL))))))
      = pre2 ++ (name ++ (saL ++ (num ++ (')' :: intoL)))))
    ∧ match3 (pre1 ++ (name ++ (saL ++ (num ++ (')' :: intoL)))))
      = some (rh1 ++ name ++ saL ++ num ++ [')', ')'], [])
    ∧ match4 (pre2 ++ (name ++ (saL ++ (num ++ (')' :: intoL)))))
      = some (rh2 ++ name ++ saL ++ num ++ [')', ')'], []) := by
  have hq : '.' ∉ ([] : List Char) := by simp
  have h11 : subst match1 (pre1 ++ (name ++ (saL ++ (num ++ (')' :: intoL)))))
      = pre1 ++ (name ++ (saL ++ (num ++ (')' :: intoL)))) :=
    subst_id_of_noM (noM_match1_occ3 hq hchars hnumc)
  have h12 : subst match2 (pre1 ++ (name ++ (saL ++ (num ++ (')' :: intoL)))))
      = pre1 ++ (name ++ (saL ++ (num ++ (')' :: intoL)))) :=
    subst_id_of_noM (noM_match2_occ3 hq hchars hnumc)
  have h21 : subst match1 (pre2 ++ (name ++ (saL ++ (num ++ (')' :: intoL)))))
      = pre2 ++ (name ++ (saL ++ (num ++ (')' :: intoL)))) :=
    subst_id_of_noM (noM_match1_occ4 hq hchars hnumc)
  have h22 : subst match2 (pre2 ++ (name ++ (saL ++ (num ++ (')' :: intoL)))))
      = pre2 ++ (name ++ (saL ++ (num ++ (')' :: intoL)))) :=
    subst_id_of_noM (noM_match2_occ4 hq hchars hnumc)
  refine ⟨by rw [h11, h12], by rw [h21, h22], ?_, ?_⟩
  · exact matchSA_eq_some.mpr ⟨name, num, hname, hchars, hnume, hnumc, rfl, rfl⟩
  · exact matchSA_eq_some.mpr ⟨name, num, hname, hchars, hnume, hnumc, rfl, rfl⟩

theorem claim_C9_rules12_skip_alpha_witness :
    subst match2 (subst match1 (toL "self.theme.scheme.accent.scale_alpha(0.8).into()"))
      = toL "self.theme.scheme.accent.scale_alpha(0.8).into()" := by
  have h := claim_C9_rules12_skip_alpha (toL "accent") (toL "0.8")
    (by decide) (by decide) (by decide) (by decide)
  have e1 : pre1 ++ (toL "accent" ++ (saL ++ (toL "0.8" ++ (')' :: intoL))))
      = toL "self.theme.scheme.accent.scale_alpha(0.8).into()" := by decide
  have h1 := h.1
  rw [e1] at h1
  exact h1

theorem engines_tail4_sub : ∀ x ∈ [match4,
    matchVar (toL "background_color"), matchVar (toL "border_color"),
    matchVar (toL "text_color"), matchVar (toL "surface_color"),
    matchVar (toL "counter_color")], x ∈ engines := by
  intro x hx
  simp only [List.mem_cons, List.not_mem_nil, or_false] at hx
  rcases hx with rfl | rfl | rfl | rfl | rfl | rfl <;> simp [engines]

/-- Claim C4: an input text consisting of an occurrence of rule 3's pattern
`self.theme.scheme.<name>.scale_alpha(<num>).into()` surrounded by dot-free
text is rewritten by the rule engine to
`iced::Color::from(self.theme.scheme.<name>.scale_alpha(<num>))`, with the
identifier and the numeric literal preserved verbatim, the `scale_alpha`
call structure retained, and only the outer wrapping changed. -/
theorem claim_C4_rule3_rewrite (p q name num : List Char) (hp : '.' ∉ p) (hq : '.' ∉ q)
    (hname : name ≠ []) (hchars : ∀ c ∈ name, identChar c = true)
    (hnume : num ≠ []) (hnumc : ∀ c ∈ num, numChar c = true) :
    fixBuffer (p ++ (pre1 ++ (name ++ (saL ++ (num ++ (')' :: (intoL ++ q)))))))
      = p ++ ((rh1 ++ name ++ saL ++ num ++ [')', ')']) ++ q) := by
  have hbdot : ∀ b, Sfx b p → '.' ∉ b := fun b hb hm => hp (sfx_mem hb hm)
  have hself : (pre1 ++ (name ++ (saL ++ (num ++ (')' :: (intoL ++ q)))))).take 4
      = toL "self" := rfl
  have h1 : subst match1 (p ++ (pre1 ++ (name ++ (saL ++ (num ++ (')' :: (intoL ++ q)))))))
      = p ++ (pre1 ++ (name ++ (saL ++ (num ++ (')' :: (intoL ++ q)))))) := by
    refine subst_id_of_noM (noM_append ?_ (noM_match1_occ3 hq hchars hnumc))
    intro b hb hbne
    refine matchSimple_none (junction_pre1 (hbdot b hb) hbne ?_)
    exact ⟨by rw [hself]; decide, by rw [hself]; decide, by rw [hself]; decide,
      by rw [hself]; decide⟩
  have h2 : subst match2 (p ++ (pre1 ++ (name ++ (saL ++ (num ++ (')' :: (intoL ++ q)))))))
      = p ++ (pre1 ++ (name ++ (saL ++ (num ++ (')' :: (intoL ++ q)))))) := by
    refine subst_id_of_noM (noM_append ?_ (noM_match2_occ3 hq hchars hnumc))
    intro b hb hbne
    refine matchSimple_none (junction_pre2 (hbdot b hb) hbne ?_)
    exact ⟨by rw [hself]; decide, by rw [hself]; decide, by rw [hself]; decide,
      by rw [hself]; decide, by rw [hself]; decide⟩
  have h3 : subst match3 (p ++ (pre1 ++ (name ++ (saL ++ (num ++ (')' :: (intoL ++ q)))))))
      = p ++ ((rh1 ++ name ++ saL ++ num ++ [')', ')']) ++ q) := by
    have hjunc3 : ∀ b, Sfx b p → b ≠ [] →
        match3 (b ++ (pre1 ++ (name ++ (saL ++ (num ++ (')' :: (intoL ++ q))))))) = none := by
      intro b hb hbne
      refine matchSA_none (junction_pre1 (hbdot b hb) hbne ?_)
      exact ⟨by rw [hself]; decide, by rw [hself]; decide, by rw [hself]; decide,
        by rw [hself]; decide⟩
    rw [subst_append_noM hjunc3]
    have hx : match3 (pre1 ++ (name ++ (saL ++ (num ++ (')' :: (intoL ++ q))))))
        = some (rh1 ++ name ++ saL ++ num ++ [')', ')'], q) :=
      matchSA_eq_some.mpr ⟨name, num, hname, hchars, hnume, hnumc, rfl, rfl⟩
    have hshr : Shrinks match3 := shrinks_matchSA
    have hdot3 : HasDot match3 := hasDot_matchSA
    rw [subst_some hshr hx (List.cons_ne_nil 's' _),
      subst_id_of_noM (noM_dotfree hdot3 hq)]
  have hgr3 : GoodRep (rh1 ++ name ++ saL ++ num ++ [')', ')']) :=
    goodRep_of_sa hname hchars hnume hnumc
      ⟨toL ":Color::from(self.theme.scheme.", by decide⟩ (by decide)
  have h4i : (rh1 ++ name ++ saL ++ num ++ [')', ')']).take 4 = toL "iced" := by
    have he : rh1 ++ name ++ saL ++ num ++ [')', ')']
        = toL "iced" ++ (toL "::Color::from(self.theme.scheme."
            ++ (name ++ (saL ++ (num ++ [')', ')'])))) := by
      rw [show rh1 = toL "iced" ++ toL "::Color::from(self.theme.scheme." from by decide]
      simp [List.append_assoc]
    rw [he]
    rfl
  rw [fixBuffer_eq_chain,
    show engines = match1 :: match2 :: match3 :: [match4,
      matchVar (toL "background_color"), matchVar (toL "border_color"),
      matchVar (toL "text_color"), matchVar (toL "surface_color"),
      matchVar (toL "counter_color")] from rfl,
    List.foldl_cons, h1, List.foldl_cons, h2, List.foldl_cons, h3]
  exact foldl_subst_id fun m hm =>
    noM_engine_sandwich (engines_tail4_sub m hm) hp hq hgr3 h4i

theorem claim_C4_rule3_rewrite_witness :
    fixBuffer (toL "let x = self.theme.scheme.accent.scale_alpha(0.75).into();")
      = toL "let x = iced::Color::from(self.theme.scheme.accent.scale_alpha(0.75));" := by
  have h := claim_C4_rule3_rewrite (toL "let x = ") (toL ";") (toL "accent") (toL "0.75")
    (by decide) (by decide) (by decide) (by decide) (by decide) (by decide)
  have e1 : toL "let x = " ++ (pre1 ++ (toL "accent" ++ (saL ++ (toL "0.75"
        ++ (')' :: (intoL ++ toL ";"))))))
      = toL "let x = self.theme.scheme.accent.scale_alpha(0.75).into();" := by decide
  have e2 : toL "let x = " ++ ((rh1 ++ toL "accent" ++ saL ++ toL "0.75"
        ++ [')', ')']) ++ toL ";")
      = toL "let x = iced::Color::from(self.theme.scheme.accent.scale_alpha(0.75));" := by
    decide
  rw [e1, e2] at h
  exact h

theorem matchVar_junction_into {v b w : List Char} (hv : ∀ c ∈ v, identChar c = true)
    (hb : ∀ c ∈ b, identChar c = true) (hbv : b ≠ v) :
    matchVar v (b ++ (intoL ++ w)) = none := by
  cases hmv : matchVar v (b ++ (intoL ++ w)) with
  | none => rfl
  | some pr =>
    exfalso
    obtain ⟨r, rest⟩ := pr
    obtain ⟨heq, _⟩ := matchVar_eq_some.mp hmv
    rcases append_eq_cases heq with ⟨t, ht⟩ | ⟨hlt, htk⟩
    · cases t with
      | nil =>
        rw [List.append_nil] at ht
        exact hbv ht
      | cons c t2 =>
        have hdrop := congrArg (List.drop v.length) heq
        rw [ht, List.append_assoc, List.drop_left, List.drop_left] at hdrop
        have hc : c = '.' := by
          have h4 : (((c :: t2) : List Char) ++ (intoL ++ w)).head? = some c := rfl
          have h5 : (intoL ++ rest).head? = some '.' := rfl
          have h6 := congrArg List.head? hdrop
          rw [h4, h5] at h6
          exact Option.some.inj h6
        have hcb : c ∈ b := by
          rw [ht]
          exact List.mem_append_right _ (List.mem_cons_self _ _)
        exact absurd (hc ▸ hb c hcb) (by decide)
    · have hdrop := congrArg (List.drop b.length) heq
      rw [List.drop_left, List.drop_append_eq_append_drop,
        Nat.sub_eq_zero_of_le (Nat.le_of_lt hlt), List.drop_zero] at hdrop
      have hne2 : v.drop b.length ≠ [] := by
        intro hnil
        have hlen := congrArg List.length hnil
        rw [List.length_drop] at hlen
        simp at hlen
        omega
      cases hvd : v.drop b.length with
      | nil => exact hne2 hvd
      | cons c vd =>
        rw [hvd] at hdrop
        have hc : '.' = c := by
          have h4 : (intoL ++ (intoL ++ rest)).head? = some '.' := rfl
          have h5 : (((c :: vd) : List Char) ++ (intoL ++ rest)).head? = some c := rfl
          rw [show intoL ++ w = intoL ++ w from rfl] at hdrop
          have h6 := congrArg List.head? hdrop
          have h7 : (intoL ++ w).head? = some '.' := rfl
          rw [h7, h5] at h6
          exact Option.some.inj h6
        have hcv : c ∈ v := by
          have : c ∈ v.drop b.length := by
            rw [hvd]
            exact List.mem_cons_self _ _
          exact List.mem_of_mem_drop this
        exact absurd (hc ▸ hv c hcv) (by decide)

/-- Claim C2 counterexample: `my_text_color` is not one of the five
hardcoded identifier names and carries no qualifying prefix, yet the rule
sequence rewrites `my_text_color.into()` because rule 5's pattern
`text_color\.into\(\)` has no word-boundary anchor and matches the suffix
of the longer identifier. -/
theorem claim_C2_counterexample :
    fixBuffer (toL "my_text_color.into()") = toL "my_iced::Color::from(text_color)" := by
  decide

/-- Claim C2 as amended: rule 5 fires on any occurrence of one of the five
hardcoded names immediately followed by `.into()`, even as a suffix of a
longer identifier; an occurrence `<identifier>.into()` in which no hardcoded
name is a suffix of the identifier (and there is no qualifying prefix) is
left completely unchanged by the full rule sequence. -/
theorem claim_C2_amended (id : List Char) (hid : id ≠ [])
    (hchars : ∀ c ∈ id, identChar c = true)
    (hnsfx : ∀ v ∈ colorVars, ¬ Sfx v id) :
    fixBuffer (id ++ intoL) = id ++ intoL := by
  rw [fixBuffer_eq_chain]
  refine foldl_subst_id ?_
  intro m hm
  have hbident : ∀ b, Sfx b id → ∀ c ∈ b, identChar c = true :=
    fun b hb c hc => hchars c (sfx_mem hb hc)
  have hbdot : ∀ b, Sfx b id → '.' ∉ b :=
    fun b hb hm2 => absurd (hbident b hb '.' hm2) (by decide)
  have hi4 : intoL.take 4 = toL ".int" := rfl
  simp only [engines, List.mem_cons, List.not_mem_nil, or_false] at hm
  rcases hm with rfl | rfl | rfl | rfl | rfl | rfl | rfl | rfl | rfl
  · refine noM_append ?_ (noM_of_noMB (by decide))
    intro b hb hbne
    refine matchSimple_none (junction_pre1 (hbdot b hb) hbne ?_)
    exact ⟨by rw [hi4]; decide, by rw [hi4]; decide, by rw [hi4]; decide,
      by rw [hi4]; decide⟩
  · refine noM_append ?_ (noM_of_noMB (by decide))
    intro b hb hbne
    refine matchSimple_none (junction_pre2 (hbdot b hb) hbne ?_)
    exact ⟨by rw [hi4]; decide, by rw [hi4]; decide, by rw [hi4]; decide,
      by rw [hi4]; decide, by rw [hi4]; decide⟩
  · refine noM_append ?_ (noM_of_noMB (by decide))
    intro b hb hbne
    refine matchSA_none (junction_pre1 (hbdot b hb) hbne ?_)
    exact ⟨by rw [hi4]; decide, by rw [hi4]; decide, by rw [hi4]; decide,
      by rw [hi4]; decide⟩
  · refine noM_append ?_ (noM_of_noMB (by decide))
    intro b hb hbne
    refine matchSA_none (junction_pre2 (hbdot b hb) hbne ?_)
    exact ⟨by rw [hi4]; decide, by rw [hi4]; decide, by rw [hi4]; decide,
      by rw [hi4]; decide, by rw [hi4]; decide⟩
  · refine noM_append ?_ (noM_of_noMB (by decide))
    intro b hb hbne
    have hbv : b ≠ toL "background_color" := fun he =>
      hnsfx (toL "background_color") (by simp [colorVars]) (he ▸ hb)
    exact matchVar_junction_into (by decide) (hbident b hb) hbv
  · refine noM_append ?_ (noM_of_noMB (by decide))
    intro b hb hbne
    have hbv : b ≠ toL "border_color" := fun he =>
      hnsfx (toL "border_color") (by simp [colorVars]) (he ▸ hb)
    exact matchVar_junction_into (by decide) (hbident b hb) hbv
  · refine noM_append ?_ (noM_of_noMB (by decide))
    intro b hb hbne
    have hbv : b ≠ toL "text_color" := fun he =>
      hnsfx (toL "text_color") (by simp [colorVars]) (he ▸ hb)
    exact matchVar_junction_into (by decide) (hbident b hb) hbv
  · refine noM_append ?_ (noM_of_noMB (by decide))
    intro b hb hbne
    have hbv : b ≠ toL "surface_color" := fun he =>
      hnsfx (toL "surface_color") (by simp [colorVars]) (he ▸ hb)
    exact matchVar_junction_into (by decide) (hbident b hb) hbv
  · refine noM_append ?_ (noM_of_noMB (by decide))
    intro b hb hbne
    have hbv : b ≠ toL "counter_color" := fun he =>
      hnsfx (toL "counter_color") (by simp [colorVars]) (he ▸ hb)
    exact matchVar_junction_into (by decide) (hbident b hb) hbv

theorem claim_C2_amended_witness :
    fixBuffer (toL "unrelated_color.into()") = toL "unrelated_color.into()" := by
  have h := claim_C2_amended (toL "unrelated_color") (by decide) (by decide) ?_
  · have e1 : toL "unrelated_color" ++ intoL = toL "unrelated_color.into()" := by decide
    rw [e1] at h
    exact h
  · intro v hv
    simp only [colorVars, List.mem_cons, List.not_mem_nil, or_false] at hv
    intro hsfx
    have hd := sfx_eq_drop hsfx
    rcases hv with rfl | rfl | rfl | rfl | rfl <;> revert hd <;> decide

/-- Claim C6 counterexample: the numeric-argument matcher of rules 3 and 4
is the character class `[0-9.]+`, not digits with at most one decimal point:
the argument `1.2.3` contains two decimal points, yet rule 3 fires on it and
rewrites the occurrence. -/
theorem claim_C6_counterexample :
    match3 (toL "self.theme.scheme.accent.scale_alpha(1.2.3).into()") =
      some (toL "iced::Color::from(self.theme.scheme.accent.scale_alpha(1.2.3))", []) ∧
    fixBuffer (toL "self.theme.scheme.accent.scale_alpha(1.2.3).into()") =
      toL "iced::Color::from(self.theme.scheme.accent.scale_alpha(1.2.3))" := by
  constructor
  · decide
  · decide

/-- Claim C6 as amended: the scale_alpha argument accepted by rules 3 and 4
is any non-empty string over digits and the decimal-point character (possibly
several points, possibly no digit), and it is preserved verbatim inside the
replacement. -/
theorem claim_C6_amended (name num : List Char) (hname : name ≠ [])
    (hid : ∀ c ∈ name, identChar c = true) (hnum : num ≠ [])
    (hnc : ∀ c ∈ num, numChar c = true) :
    match3 (pre1 ++ (name ++ (saL ++ (num ++ (')' :: intoL))))) =
      some (rh1 ++ name ++ saL ++ num ++ [')', ')'], []) ∧
    match4 (pre2 ++ (name ++ (saL ++ (num ++ (')' :: intoL))))) =
      some (rh2 ++ name ++ saL ++ num ++ [')', ')'], []) := by
  constructor
  · exact matchSA_eq_some.mpr ⟨name, num, hname, hid, hnum, hnc,
      by simp [List.append_nil], rfl⟩
  · exact matchSA_eq_some.mpr ⟨name, num, hname, hid, hnum, hnc,
      by simp [List.append_nil], rfl⟩

theorem claim_C6_amended_witness :
    match3 (pre1 ++ (toL "accent" ++ (saL ++ (toL "0.8" ++ (')' :: intoL))))) =
      some (rh1 ++ toL "accent" ++ saL ++ toL "0.8" ++ [')', ')'], []) ∧
    match4 (pre2 ++ (toL "accent" ++ (saL ++ (toL "0.8" ++ (')' :: intoL))))) =
      some (rh2 ++ toL "accent" ++ saL ++ toL "0.8" ++ [')', ')'], []) :=
  claim_C6_amended (toL "accent") (toL "0.8") (by decide) (by decide)
    (by decide) (by decide)

/-- Claim C3: the full rule sequence is idempotent — for every input buffer,
running the five-rule engine on its own output produces no further change, so
the output of one pass is a fixed point of the engine. -/
theorem claim_C3_idempotent (s : List Char) :
    fixBuffer (fixBuffer s) = fixBuffer s :=
  fixBuffer_idem s

/-- Claim C10: after the full rule sequence no pattern of any of the nine
substitution passes matches anywhere in the output buffer — every suffix of
the output is rejected by every matcher, so a single pass eliminates every
covered call-site shape. -/
theorem claim_C10_no_remaining_matches (s : List Char) :
    ∀ m ∈ engines, ∀ t, Sfx t (fixBuffer s) → m t = none :=
  fun m hm t ht => noM_engines s m hm t ht

theorem claim_C10_no_remaining_matches_witness :
    match1 (fixBuffer (toL "self.theme.scheme.background.into()")) = none :=
  claim_C10_no_remaining_matches (toL "self.theme.scheme.background.into()")
    match1 (by simp [engines]) (fixBuffer (toL "self.theme.scheme.background.into()"))
    (sfx_refl _)

/-- Claim C7: the rule engine is exactly the sequential composition of the
global substitution passes in the fixed source order — rules 1 to 4 and then
the five hardcoded variable rules — each pass operating on the output of the
previous one, unconditionally. -/
theorem claim_C7_sequential_passes (s : List Char) :
    fixBuffer s =
      subst (matchVar (toL "counter_color"))
        (subst (matchVar (toL "surface_color"))
          (subst (matchVar (toL "text_color"))
            (subst (matchVar (toL "border_color"))
              (subst (matchVar (toL "background_color"))
                (subst match4 (subst match3 (subst match2 (subst match1 s)))))))) := by
  simp only [fixBuffer, colorVars, List.foldl_cons, List.foldl_nil]

theorem fixFile_ok_of (f : SFile) (hr : f.readable = true)
    (hw : changedB f = true → f.writable = true) :
    fixFile f = Except.ok (writeBack f, changedB f) := by
  cases hc : (fixBuffer f.content == f.content) with
  | true => simp [fixFile, writeBack, changedB, hr, hc]
  | false =>
    have hwt : f.writable = true := hw (by simp [changedB, hc])
    simp [fixFile, writeBack, changedB, hr, hc, hwt]

theorem fixFile_error_of (f : SFile)
    (h : f.readable = false ∨ (changedB f = true ∧ f.writable = false)) :
    fixFile f = Except.error () := by
  rcases h with hr | ⟨hc, hw⟩
  · simp [fixFile, hr]
  · have hc2 : (fixBuffer f.content == f.content) = false := by
      revert hc
      simp [changedB]
    cases hr : f.readable <;> simp [fixFile, hr, hc2, hw]

theorem fixFile_ok_inv {f g : SFile} {b : Bool} (h : fixFile f = Except.ok (g, b)) :
    g = writeBack f ∧ b = changedB f := by
  cases hr : f.readable with
  | false =>
    rw [fixFile_error_of f (Or.inl hr)] at h
    exact absurd h (by simp)
  | true =>
    by_cases hcw : changedB f = true → f.writable = true
    · rw [fixFile_ok_of f hr hcw] at h
      have h2 := (Except.ok.injEq _ _).mp h.symm
      exact ⟨(Prod.mk.injEq _ _ _ _).mp h2 |>.1, (Prod.mk.injEq _ _ _ _).mp h2 |>.2⟩
    · push_neg at hcw
      have hwf : f.writable = false := by
        cases hwt : f.writable with
        | false => rfl
        | true => exact absurd hwt hcw.2
      rw [fixFile_error_of f (Or.inr ⟨hcw.1, hwf⟩)] at h
      exact absurd h (by simp)

set_option maxHeartbeats 1600000 in
/-- Claim C5: in an error-free run, a file is overwritten exactly when the
rule engine's output differs from its original content — an unchanged file is
left byte-identical and not counted, a changed file is fully replaced by the
engine's output, and the final count is exactly the number of changed
files. -/
theorem claim_C5_write_iff_changed (fs fs2 : List SFile) (n : Nat)
    (h : runMain fs = (fs2, n, none)) :
    fs2 = fs.map writeBack ∧
    n = (fs.filter changedB).length ∧
    ∀ g ∈ fs, changedB g = false → writeBack g = g := by
  have hmain : fs2 = fs.map writeBack ∧ n = (fs.filter changedB).length := by
    induction fs generalizing fs2 n with
    | nil =>
      simp only [runMain, Prod.mk.injEq] at h
      obtain ⟨rfl, rfl, -⟩ := h
      simp
    | cons f fs ih =>
      simp only [runMain] at h
      cases hf : fixFile f with
      | error e =>
        rw [hf] at h
        simp only [Prod.mk.injEq] at h
        exact absurd h.2.2 (by simp)
      | ok p =>
        obtain ⟨f2, b⟩ := p
        rw [hf] at h
        rcases hr : runMain fs with ⟨r1, rn, re⟩
        rw [hr] at h
        simp only [Prod.mk.injEq] at h
        obtain ⟨h1, h2, h3⟩ := h
        subst h1
        subst h2
        subst h3
        obtain ⟨hm, hn⟩ := ih r1 rn hr
        obtain ⟨hg, hb⟩ := fixFile_ok_inv hf
        subst hg
        subst hb
        subst hm
        subst hn
        refine ⟨by simp, ?_⟩
        cases hcb : changedB f <;> simp [List.filter_cons, hcb, Nat.add_comm]
  refine ⟨hmain.1, hmain.2, fun g _ hcg => ?_⟩
  have hcc : (fixBuffer g.content == g.content) = true := by
    revert hcg
    simp [changedB]
  simp [writeBack, hcc]

set_option maxHeartbeats 1600000 in
theorem claim_C5_write_iff_changed_witness :
    [SFile.mk (toL "iced::Color::from(border_color)") true true,
      SFile.mk (toL "fn main()") true true] =
      [SFile.mk (toL "border_color.into()") true true,
        SFile.mk (toL "fn main()") true true].map writeBack ∧
    1 = ([SFile.mk (toL "border_color.into()") true true,
      SFile.mk (toL "fn main()") true true].filter changedB).length ∧
    ∀ g ∈ [SFile.mk (toL "border_color.into()") true true,
      SFile.mk (toL "fn main()") true true], changedB g = false → writeBack g = g :=
  claim_C5_write_iff_changed
    [SFile.mk (toL "border_color.into()") true true,
      SFile.mk (toL "fn main()") true true]
    [SFile.mk (toL "iced::Color::from(border_color)") true true,
      SFile.mk (toL "fn main()") true true]
    1 (by decide)

/-- Claim C8: no read or write error is recovered — when a file fails
(unreadable, or changed but unwritable) while all earlier files succeed, the
run aborts at that file with the error surfaced: every earlier file is left
in its rewritten final state, and the failing file and all later files are
completely untouched. -/
theorem claim_C8_error_aborts (fs1 : List SFile) (f : SFile) (fs2 : List SFile)
    (hok : ∀ g ∈ fs1, g.readable = true ∧ (changedB g = true → g.writable = true))
    (herr : f.readable = false ∨ (changedB f = true ∧ f.writable = false)) :
    runMain (fs1 ++ f :: fs2) =
      (fs1.map writeBack ++ f :: fs2, (fs1.filter changedB).length, some ()) := by
  induction fs1 with
  | nil =>
    simp only [List.nil_append, List.map_nil, List.filter_nil, List.length_nil]
    simp only [runMain, fixFile_error_of f herr]
  | cons g gs ih =>
    have hokg := hok g (List.mem_cons_self _ _)
    have hoks : ∀ x ∈ gs, x.readable = true ∧ (changedB x = true → x.writable = true) :=
      fun x hx => hok x (List.mem_cons_of_mem _ hx)
    simp only [List.cons_append, runMain, fixFile_ok_of g hokg.1 hokg.2, ih hoks]
    cases hcb : changedB g <;>
      simp [ih hoks, List.filter_cons, hcb, Nat.add_comm]

theorem claim_C8_error_aborts_witness :
    runMain ([SFile.mk (toL "border_color.into()") true true] ++
        SFile.mk (toL "text_color.into()") false true ::
        [SFile.mk (toL "let x = 1;") true true]) =
      ([SFile.mk (toL "border_color.into()") true true].map writeBack ++
        SFile.mk (toL "text_color.into()") false true ::
        [SFile.mk (toL "let x = 1;") true true],
        ([SFile.mk (toL "border_color.into()") true true].filter changedB).length,
        some ()) :=
  claim_C8_error_aborts
    [SFile.mk (toL "border_color.into()") true true]
    (SFile.mk (toL "text_color.into()") false true)
    [SFile.mk (toL "let x = 1;") true true]
    (by decide) (by decide)

example :
    fixBuffer (toL "border_color.into()") = toL "iced::Color::from(border_color)" := by
  decide

example : fixBuffer (toL "unrelated_color.into()") = toL "unrelated_color.into()" := by
  decide

example :
    fixBuffer (toL "self.theme.scheme.fg.scale_alpha(0.5).into()") =
      toL "iced::Color::from(self.theme.scheme.fg.scale_alpha(0.5))" := by
  decide

example :
    fixBuffer (toL "my_text_color.into()") = toL "my_iced::Color::from(text_color)" := by
  decide

end FixColors
